import Mathlib

/-!
# Solitaire cipher (`src/Cipher.cpp`): shallow embedding and verified properties

The C++ class `Cipher` keeps three vectors (`key_`, `initKey_`, `keystream_`).
Member functions become functions on an explicit `Cipher` state.  Exceptions and
undefined behaviour (an access outside a vector) are results in `Except Err`.
`int` values stay far below the 32-bit range, so they are plain `Int`.
The `while` loop of `generateKeystream` has no iteration bound; it is modelled
with a fuel argument counting loop iterations.
-/

/-- Outcomes other than a normal return. -/
inductive Err where
  /-- The exception `std::runtime_error(what)` thrown by the source. -/
  | runtime_error (what : String)
  /-- The exception `std::length_error` of `vector::resize` on a negative size. -/
  | length_error
  /-- Undefined behaviour: an element access or iterator outside its vector. -/
  | outOfRange
  /-- The loop of `generateKeystream` did not finish within the given fuel. -/
  | outOfFuel
  deriving DecidableEq, Repr

/-- The data members of the class `Cipher`. -/
structure Cipher where
  key_ : List Int
  initKey_ : List Int
  keystream_ : List Int
  deriving DecidableEq, Repr

namespace Cipher

/-- Modelled from the spec: the constant `Cipher::NCARDS` is declared in `Cipher.h`,
which is not among the sources; the spec fixes the deck at 54 cards. -/
def NCARDS : Int := 54

/-- Modelled from the spec: the constant `Cipher::RADIX` is declared in `Cipher.h`,
which is not among the sources; the spec fixes the letter range at 1..26. -/
def RADIX : Int := 26

/-- Element read `v[i]` of a `std::vector<int>`; outside the vector it is undefined. -/
def readAt (v : List Int) (i : Int) : Except Err Int :=
  if 0 ≤ i then
    match v[i.toNat]? with
    | some x => .ok x
    | none => .error .outOfRange
  else .error .outOfRange

/-- Element write `v[i] = x` of a `std::vector<int>`; outside the vector it is undefined. -/
def writeAt (v : List Int) (i : Int) (x : Int) : Except Err (List Int) :=
  if 0 ≤ i ∧ i < (v.length : Int) then .ok (v.set i.toNat x) else .error .outOfRange

/-- The call `v.resize(n)` of a `std::vector<int>`: new elements are zero. -/
def resize (v : List Int) (n : Int) : Except Err (List Int) :=
  if 0 ≤ n then .ok (v.take n.toNat ++ List.replicate (n.toNat - v.length) 0)
  else .error .length_error

/-- The call `std::rotate(v.begin() + first, v.begin() + middle, v.begin() + last)`:
the range `[first, last)` is rotated left so that `middle` becomes its first element. -/
def stdRotate (v : List Int) (first middle last : Int) : Except Err (List Int) :=
  if 0 ≤ first ∧ first ≤ middle ∧ middle ≤ last ∧ last ≤ (v.length : Int) then
    .ok (v.take first.toNat
          ++ (v.drop middle.toNat).take (last.toNat - middle.toNat)
          ++ (v.drop first.toNat).take (middle.toNat - first.toNat)
          ++ v.drop last.toNat)
  else .error .outOfRange

/-- The constructor `Cipher::Cipher()`: `key_.resize(NCARDS)`. -/
def new : Cipher :=
  { key_ := List.replicate NCARDS.toNat 0, initKey_ := [], keystream_ := [] }

/-- The filling loop of `generateKey`: `*i = val++` over the vector. -/
def fillFrom : List Int → Int → List Int
  | [], _ => []
  | _ :: rest, val => val :: fillFrom rest (val + 1)

/-- The member `generateKey`; `random_shuffle` stands for the outcome of
`std::random_shuffle` on the filled vector. -/
def generateKey (random_shuffle : List Int → List Int) (c : Cipher) : List Int × Cipher :=
  let key := random_shuffle (fillFrom c.key_ 1)
  (key, { c with key_ := key, initKey_ := key })

/-- The member `convertCharsToInts`: `_chars[i] - below_a` with `below_a = 'a' - 1`. -/
def convertCharsToInts (_chars : List Char) : List Int :=
  _chars.map (fun ch => (ch.toNat : Int) - (('a'.toNat : Int) - 1))

/-- The member `convertIntsToChars`: `static_cast<char>(i + below_a)`, one byte wide. -/
def convertIntsToChars (_ints : List Int) : List Char :=
  _ints.map (fun i => Char.ofNat ((i + (('a'.toNat : Int) - 1)) % 256).toNat)

/-- The member `swapCards`. -/
def swapCards (c : Cipher) (_pos1 _pos2 : Int) : Except Err Cipher := do
  let _pos1 := if _pos1 > NCARDS then _pos1 - NCARDS else _pos1
  let _pos2 := if _pos2 > NCARDS then _pos2 - NCARDS else _pos2
  let temp ← readAt c.key_ (_pos2 - 1)
  let x ← readAt c.key_ (_pos1 - 1)
  let k ← writeAt c.key_ (_pos2 - 1) x
  let k ← writeAt k (_pos1 - 1) temp
  pure { c with key_ := k }

/-- The member `findJokerA`: `std::find` gives the iterator `it` (here its offset,
the length of the vector standing for `end()`), and the function returns `*it`. -/
def findJokerA (c : Cipher) : Except Err Int :=
  let it := List.indexOf (53 : Int) c.key_
  if it = c.key_.length then
    .error (.runtime_error "Fatal error: Cipher's key missing JOKERA value")
  else readAt c.key_ it

/-- The member `findJokerB`: as `findJokerA`, for the value 54. -/
def findJokerB (c : Cipher) : Except Err Int :=
  let it := List.indexOf (54 : Int) c.key_
  if it = c.key_.length then
    .error (.runtime_error "Fatal error: Cipher's key missing JOKERA value")
  else readAt c.key_ it

/-- The scanning loop of `findJokers`: `idx` is `i - key_.begin()`. -/
def findJokersLoop : List Int → Int → Int × Int → Int → (Int × Int) × Int
  | [], _, output, numFound => (output, numFound)
  | x :: rest, idx, output, numFound =>
    if x > 52 then
      if numFound = 0 then findJokersLoop rest (idx + 1) (idx + 1, output.2) (numFound + 1)
      else findJokersLoop rest (idx + 1) (output.1, idx + 1) (numFound + 1)
    else findJokersLoop rest (idx + 1) output numFound

/-- The member `findJokers`. -/
def findJokers (c : Cipher) : Except Err (Int × Int) :=
  let r := findJokersLoop c.key_ 0 (0, 0) 0
  if r.2 < 2 then
    .error (.runtime_error "Fatal error: Cipher's key does not contain both JOKERs")
  else .ok r.1

/-- The member `tripleCut`: two calls of `std::rotate`. -/
def tripleCut (c : Cipher) (_endSlice1 _startSlice2 : Int) : Except Err Cipher := do
  let firstPivot := _startSlice2
  let k ← stdRotate c.key_ 0 firstPivot c.key_.length
  let lenThirdSlice := NCARDS - _startSlice2
  let lenFirstSlice := _endSlice1 - 1
  let k ← stdRotate k lenThirdSlice (lenThirdSlice + lenFirstSlice) k.length
  pure { c with key_ := k }

/-- The member `countCut`. -/
def countCut (c : Cipher) (_pos : Int) : Except Err Cipher :=
  if _pos > 52 then .ok c
  else do
    let k ← stdRotate c.key_ 0 _pos ((c.key_.length : Int) - 1)
    pure { c with key_ := k }

/-- The member `findOutput`. -/
def findOutput (c : Cipher) : Except Err Int := do
  let topCardValue ← readAt c.key_ 0
  let output ← readAt c.key_ (topCardValue - 1)
  if output < 0 ∨ output > NCARDS then
    throw (.runtime_error "Fatal error: there should not be a card with a negative face value")
  let output := if output > 52 then -1 else output
  let output := if output > RADIX then output - RADIX else output
  pure output

/-- Step 1 of the loop body of `generateKeystream` (source lines 42-43). -/
def moveJokerA (c : Cipher) : Except Err Cipher := do
  let pos ← c.findJokerA
  c.swapCards pos (pos + 1)

/-- Step 2 of the loop body of `generateKeystream` (source lines 44-46). -/
def moveJokerB (c : Cipher) : Except Err Cipher := do
  let pos ← c.findJokerB
  let c ← c.swapCards pos (pos + 1)
  c.swapCards (pos + 1) (pos + 2)

/-- The deck part of the loop body of `generateKeystream` (source lines 42-50):
the two joker moves, the triple cut and the count cut. -/
def roundDeck (c : Cipher) : Except Err Cipher := do
  let c ← c.moveJokerA
  let c ← c.moveJokerB
  let jokers ← c.findJokers
  let c ← c.tripleCut jokers.1 jokers.2
  let pos ← readAt c.key_ (NCARDS - 1)
  c.countCut pos

/-- One iteration of the loop body of `generateKeystream` up to the test of
`keystream_[count]` (source lines 42-51). -/
def roundBody (c : Cipher) (count : Nat) : Except Err Cipher := do
  let c ← c.roundDeck
  let out ← c.findOutput
  let ks ← writeAt c.keystream_ count out
  pure { c with keystream_ := ks }

/-- The `while (count < _n)` loop of `generateKeystream`; each iteration uses one
unit of fuel. -/
def generateKeystreamLoop : Nat → Int → Nat → Cipher → Except Err Cipher
  | 0, _n, count, c => if (count : Int) < _n then .error .outOfFuel else .ok c
  | fuel + 1, _n, count, c =>
    if (count : Int) < _n then
      match c.roundBody count with
      | .error e => .error e
      | .ok c =>
        match readAt c.keystream_ count with
        | .error e => .error e
        | .ok k =>
          if k < 0 then generateKeystreamLoop fuel _n count c
          else generateKeystreamLoop fuel _n (count + 1) c
    else .ok c

/-- The member `generateKeystream`: the returned vector and the state left behind. -/
def generateKeystream (fuel : Nat) (_n : Int) (c : Cipher) : Except Err (List Int × Cipher) := do
  let ks ← resize c.keystream_ _n
  let c ← generateKeystreamLoop fuel _n 0 { c with keystream_ := ks }
  pure (c.keystream_, c)

/-- The `for` loop of `encrypt`, with `i` the loop index and `todo` the number of
iterations left. -/
def encryptLoop (textInInts keystream_ : List Int) : Nat → Nat → List Int → Except Err (List Int)
  | 0, _, ctextInInts => .ok ctextInInts
  | todo + 1, i, ctextInInts => do
    let t ← readAt textInInts i
    let k ← readAt keystream_ i
    let ctextInInts ← writeAt ctextInInts i (t + k)
    let v ← readAt ctextInInts i
    let ctextInInts ← if v > RADIX then writeAt ctextInInts i (v - RADIX) else pure ctextInInts
    encryptLoop textInInts keystream_ todo (i + 1) ctextInInts

/-- The member `encrypt`: the returned string and the state left behind. -/
def encrypt (fuel : Nat) (_plaintext : List Char) (c : Cipher) :
    Except Err (List Char × Cipher) := do
  let textInInts := convertCharsToInts _plaintext
  let nChars := _plaintext.length
  let c := { c with key_ := c.initKey_ }
  let (_, c) ← generateKeystream fuel nChars c
  let ctextInInts ← encryptLoop textInInts c.keystream_ nChars 0 (List.replicate nChars 0)
  pure (convertIntsToChars ctextInInts, c)

/-- The `for` loop of `decrypt`, with `i` the loop index and `todo` the number of
iterations left. -/
def decryptLoop (ctextInInts keystream_ : List Int) : Nat → Nat → List Int → Except Err (List Int)
  | 0, _, textInInts => .ok textInInts
  | todo + 1, i, textInInts => do
    let t ← readAt ctextInInts i
    let k ← readAt keystream_ i
    let textInInts ← writeAt textInInts i (t - k)
    let v ← readAt textInInts i
    let textInInts ← if v < 1 then writeAt textInInts i (v + RADIX) else pure textInInts
    decryptLoop ctextInInts keystream_ todo (i + 1) textInInts

/-- The member `decrypt`: the returned string and the state left behind. -/
def decrypt (fuel : Nat) (_ciphertext : List Char) (c : Cipher) :
    Except Err (List Char × Cipher) := do
  let ctextInInts := convertCharsToInts _ciphertext
  let nChars := _ciphertext.length
  let c := { c with key_ := c.initKey_ }
  let (_, c) ← generateKeystream fuel nChars c
  let textInInts ← decryptLoop ctextInInts c.keystream_ nChars 0 (List.replicate nChars 0)
  pure (convertIntsToChars textInInts, c)

/-- The cards 1..54 in increasing order. -/
def fullDeck : List Int := List.map (fun (i : Nat) => (i : Int) + 1) (List.range 54)

/-- A deck is valid when it is a permutation of 1..54. -/
def ValidDeck (d : List Int) : Prop := List.Perm d fullDeck

/-- A string over the letters a..z. -/
def LowerCase (s : List Char) : Prop := ∀ ch ∈ s, 'a'.toNat ≤ ch.toNat ∧ ch.toNat ≤ 'z'.toNat

/-- The valid deck 53, 1, 2, ..., 52, 54: joker A on top, joker B at the bottom. -/
def jokerATopDeck : List Int :=
  53 :: (List.map (fun (i : Nat) => (i : Int) + 1) (List.range 52) ++ [54])

/-- The valid deck 54, 1, 2, ..., 53: joker B on top, joker A at the bottom. -/
def jokerBTopDeck : List Int :=
  54 :: List.map (fun (i : Nat) => (i : Int) + 1) (List.range 53)

/-- The valid deck 53, 52, ..., 1, 54, whose first round is void. -/
def voidRoundDeck : List Int :=
  List.map (fun (i : Nat) => 53 - (i : Int)) (List.range 53) ++ [54]

/-- The iterated round sequence, in the spec's words: the rounds are run one after
the other, each on the deck the one before left (a void round included), and the
candidate output of each is recorded, a void round as -1.  The result is the outputs of
the first `m` rounds and the state after them. -/
def roundsFrom : Nat → Cipher → Except Err (List Int × Cipher)
  | 0, c => .ok ([], c)
  | m + 1, c => do
    let c1 ← c.roundDeck
    let out ← c1.findOutput
    let (outs, c2) ← roundsFrom m c1
    pure (out :: outs, c2)

/-- The body of the member `tripleCut` on the deck alone, with the deck size `NCARDS`
(declared in `Cipher.h`, which is not among the sources) as the parameter `ncards`. -/
def tripleCutWith (ncards : Int) (key_ : List Int) (_endSlice1 _startSlice2 : Int) :
    Except Err (List Int) := do
  let firstPivot := _startSlice2
  let k ← stdRotate key_ 0 firstPivot key_.length
  let lenThirdSlice := ncards - _startSlice2
  let lenFirstSlice := _endSlice1 - 1
  stdRotate k lenThirdSlice (lenThirdSlice + lenFirstSlice) k.length

end Cipher

namespace Cipher

/-! ## Vector primitives -/

theorem readAt_nat (v : List Int) (i : Nat) (h : i < v.length) :
    readAt v (i : Int) = .ok v[i] := by
  simp [readAt, List.getElem?_eq_getElem h]

theorem readAt_int (v : List Int) (i : Int) (h0 : 0 ≤ i) (h : i.toNat < v.length) :
    readAt v i = .ok v[i.toNat] := by
  simp [readAt, h0, List.getElem?_eq_getElem h]

theorem writeAt_nat (v : List Int) (i : Nat) (x : Int) (h : i < v.length) :
    writeAt v (i : Int) x = .ok (v.set i x) := by
  simp [writeAt, h]

theorem writeAt_int (v : List Int) (i : Int) (x : Int) (h0 : 0 ≤ i) (h : i.toNat < v.length) :
    writeAt v i x = .ok (v.set i.toNat x) := by
  have : i < (v.length : Int) := by omega
  simp [writeAt, h0, this]

theorem fullDeck_length : fullDeck.length = 54 := by
  simp [fullDeck]

theorem mem_fullDeck (x : Int) : x ∈ fullDeck ↔ 1 ≤ x ∧ x ≤ 54 := by
  simp only [fullDeck, List.mem_map, List.mem_range]
  constructor
  · rintro ⟨i, hi, rfl⟩
    omega
  · intro h
    exact ⟨(x - 1).toNat, by omega, by omega⟩

theorem ValidDeck.length_eq {d : List Int} (h : ValidDeck d) : d.length = 54 := by
  rw [List.Perm.length_eq h, fullDeck_length]

theorem ValidDeck.mem_iff {d : List Int} (h : ValidDeck d) (x : Int) :
    x ∈ d ↔ 1 ≤ x ∧ x ≤ 54 := by
  rw [List.Perm.mem_iff h, mem_fullDeck]

theorem ValidDeck.getElem_bounds {d : List Int} (h : ValidDeck d) (i : Nat) (hi : i < d.length) :
    1 ≤ d[i] ∧ d[i] ≤ 54 :=
  (h.mem_iff _).1 (List.getElem_mem hi)

/-! ## Letter codec -/

theorem ofNat_toNat_letter (ch : Char) (h : 'a'.toNat ≤ ch.toNat ∧ ch.toNat ≤ 'z'.toNat) :
    Char.ofNat (((ch.toNat : Int) - (('a'.toNat : Int) - 1) + (('a'.toNat : Int) - 1)) % 256).toNat
      = ch := by
  have ha : 'a'.toNat = 97 := by decide
  have hz : 'z'.toNat = 122 := by decide
  rw [ha, hz] at h
  have : (((ch.toNat : Int) - (('a'.toNat : Int) - 1) + (('a'.toNat : Int) - 1)) % 256).toNat
      = ch.toNat := by
    rw [ha]; omega
  rw [this, Char.ofNat_toNat]

theorem toNat_ofNat_small (n : Nat) (h : n < 256) : (Char.ofNat n).toNat = n := by
  have hv : n.isValidChar := by
    left
    omega
  simp [Char.ofNat, hv, Char.ofNatAux, Char.toNat, UInt32.toNat]

theorem toNat_ofNat_letter (i : Int) (h : 1 ≤ i ∧ i ≤ 26) :
    ((Char.ofNat ((i + (('a'.toNat : Int) - 1)) % 256).toNat).toNat : Int)
      - (('a'.toNat : Int) - 1) = i := by
  have ha : 'a'.toNat = 97 := by decide
  rw [ha]
  have h2 : ((i + ((97 : Nat) - 1 : Int)) % 256).toNat < 256 := by omega
  rw [toNat_ofNat_small _ h2]
  omega

theorem convertIntsToChars_convertCharsToInts (s : List Char) (hs : LowerCase s) :
    convertIntsToChars (convertCharsToInts s) = s := by
  unfold convertIntsToChars convertCharsToInts
  rw [List.map_map]
  conv_rhs => rw [← List.map_id s]
  apply List.map_congr_left
  intro ch hch
  exact ofNat_toNat_letter ch (hs ch hch)

theorem convertCharsToInts_convertIntsToChars (v : List Int) (hv : ∀ i ∈ v, 1 ≤ i ∧ i ≤ 26) :
    convertCharsToInts (convertIntsToChars v) = v := by
  unfold convertIntsToChars convertCharsToInts
  rw [List.map_map]
  conv_rhs => rw [← List.map_id v]
  apply List.map_congr_left
  intro i hi
  exact toNat_ofNat_letter i (hv i hi)

/-! ## Exchanging two elements -/

theorem cons_perm_getElem_cons_set (l : List Int) (j : Nat) (h : j < l.length) (x : Int) :
    (x :: l).Perm (l[j] :: l.set j x) := by
  induction l generalizing j with
  | nil => simp at h
  | cons b t ih =>
    cases j with
    | zero => simpa using List.Perm.swap b x t
    | succ j =>
      have hj : j < t.length := by simpa using h
      have h1 : (x :: b :: t).Perm (b :: x :: t) := List.Perm.swap b x t
      have h2 : (b :: x :: t).Perm (b :: t[j] :: t.set j x) := (ih j hj).cons b
      have h3 : (b :: t[j] :: t.set j x).Perm (t[j] :: b :: t.set j x) :=
        List.Perm.swap _ _ _
      simpa using h1.trans (h2.trans h3)

theorem set_set_perm_self (l : List Int) (i j : Nat) (hi : i < l.length) (hj : j < l.length) :
    ((l.set j l[i]).set i l[j]).Perm l := by
  induction l generalizing i j with
  | nil => simp at hi
  | cons b t ih =>
    cases i with
    | zero =>
      cases j with
      | zero => simp
      | succ j =>
        have hj2 : j < t.length := by simpa using hj
        simpa using (cons_perm_getElem_cons_set t j hj2 b).symm
    | succ i =>
      have hi2 : i < t.length := by simpa using hi
      cases j with
      | zero =>
        have h1 := (cons_perm_getElem_cons_set t i hi2 b).symm
        simpa using h1
      | succ j =>
        have hj2 : j < t.length := by simpa using hj
        simpa using (ih i j hi2 hj2).cons b

theorem swapCards_eq (c : Cipher) (p1 p2 : Int) (i j : Nat)
    (hi : i < c.key_.length) (hj : j < c.key_.length)
    (h1 : (if p1 > NCARDS then p1 - NCARDS else p1) - 1 = (i : Int))
    (h2 : (if p2 > NCARDS then p2 - NCARDS else p2) - 1 = (j : Int)) :
    swapCards c p1 p2 = .ok { c with key_ := (c.key_.set j c.key_[i]).set i c.key_[j] } := by
  have hi2 : i < (c.key_.set j c.key_[i]).length := by simpa using hi
  simp only [swapCards, h1, h2, readAt_nat _ _ hi, readAt_nat _ _ hj, writeAt_nat _ _ _ hj,
    writeAt_nat _ _ _ hi2, bind, Except.bind, pure, Except.pure]

/-! ## Locating the jokers -/

theorem findJokerA_of_mem (c : Cipher) (h : (53 : Int) ∈ c.key_) : findJokerA c = .ok 53 := by
  have hlt : List.indexOf (53 : Int) c.key_ < c.key_.length := List.indexOf_lt_length.2 h
  simp only [findJokerA, Nat.ne_of_lt hlt, if_false, readAt_nat _ _ hlt, List.getElem_indexOf]

theorem findJokerB_of_mem (c : Cipher) (h : (54 : Int) ∈ c.key_) : findJokerB c = .ok 54 := by
  have hlt : List.indexOf (54 : Int) c.key_ < c.key_.length := List.indexOf_lt_length.2 h
  simp only [findJokerB, Nat.ne_of_lt hlt, if_false, readAt_nat _ _ hlt, List.getElem_indexOf]

theorem moveJokerA_of_mem (c : Cipher) (h : (53 : Int) ∈ c.key_) :
    moveJokerA c = swapCards c 53 54 := by
  simp [moveJokerA, findJokerA_of_mem c h, bind, Except.bind]

theorem moveJokerB_of_mem (c : Cipher) (h : (54 : Int) ∈ c.key_) :
    moveJokerB c = (swapCards c 54 55).bind (fun c1 => swapCards c1 55 56) := by
  simp [moveJokerB, findJokerB_of_mem c h, bind, Except.bind]

/-- On a deck of 54 cards holding the value 53, step 1 exchanges the cards at
positions 53 and 54, wherever joker A lies. -/
theorem moveJokerA_eq (c : Cipher) (hlen : c.key_.length = 54) (h : (53 : Int) ∈ c.key_) :
    ∃ k, moveJokerA c = .ok { c with key_ := k } ∧ k.Perm c.key_ := by
  have h52 : 52 < c.key_.length := by omega
  have h53 : 53 < c.key_.length := by omega
  refine ⟨(c.key_.set 53 c.key_[52]).set 52 c.key_[53], ?_, set_set_perm_self _ _ _ h52 h53⟩
  rw [moveJokerA_of_mem c h]
  exact swapCards_eq c 53 54 52 53 h52 h53 (by decide) (by decide)

/-- On a deck of 54 cards holding the value 54, step 2 exchanges positions 54 and 1
and then positions 1 and 2, wherever joker B lies. -/
theorem moveJokerB_eq (c : Cipher) (hlen : c.key_.length = 54) (h : (54 : Int) ∈ c.key_) :
    ∃ k, moveJokerB c = .ok { c with key_ := k } ∧ k.Perm c.key_ := by
  have h0 : 0 < c.key_.length := by omega
  have h1 : 1 < c.key_.length := by omega
  have h53 : 53 < c.key_.length := by omega
  let k1 := (c.key_.set 0 c.key_[53]).set 53 c.key_[0]
  have hk1 : k1.length = c.key_.length := by simp [k1]
  have p1 : k1.Perm c.key_ := set_set_perm_self _ _ _ h53 h0
  have g0 : 0 < k1.length := by omega
  have g1 : 1 < k1.length := by omega
  refine ⟨(k1.set 1 k1[0]).set 0 k1[1], ?_, (set_set_perm_self _ _ _ g0 g1).trans p1⟩
  rw [moveJokerB_of_mem c h, swapCards_eq c 54 55 53 0 h53 h0 (by decide) (by decide)]
  exact swapCards_eq { c with key_ := k1 } 55 56 0 1 g0 g1 (by decide) (by decide)

/-! ## Rotations -/

theorem stdRotate_ok (v : List Int) (f m l : Nat) (hfm : f ≤ m) (hml : m ≤ l)
    (hl : l ≤ v.length) :
    stdRotate v f m l = .ok (v.take f ++ (v.drop m).take (l - m) ++ (v.drop f).take (m - f)
      ++ v.drop l) := by
  have h : (0 : Int) ≤ f ∧ (f : Int) ≤ m ∧ (m : Int) ≤ l ∧ (l : Int) ≤ v.length := by
    omega
  simp only [stdRotate, h, and_self, if_true, Int.toNat_ofNat]

theorem rotate_perm (v : List Int) (f m l : Nat) (hfm : f ≤ m) (hml : m ≤ l) :
    (v.take f ++ (v.drop m).take (l - m) ++ (v.drop f).take (m - f) ++ v.drop l).Perm v := by
  have e1 : v.drop m = (v.drop f).drop (m - f) := by
    rw [List.drop_drop]; congr 1; omega
  have e2 : v.drop l = (v.drop m).drop (l - m) := by
    rw [List.drop_drop]; congr 1; omega
  have d1 : v = v.take f ++ ((v.drop f).take (m - f) ++ ((v.drop m).take (l - m) ++ v.drop l)) := by
    rw [e2, List.take_append_drop, e1, List.take_append_drop, List.take_append_drop]
  conv_rhs => rw [d1]
  rw [List.append_assoc, List.append_assoc]
  exact (List.perm_append_comm_assoc _ _ _).append_left _

theorem rotate_length (v : List Int) (f m l : Nat) (hfm : f ≤ m) (hml : m ≤ l) :
    (v.take f ++ (v.drop m).take (l - m) ++ (v.drop f).take (m - f) ++ v.drop l).length
      = v.length :=
  (rotate_perm v f m l hfm hml).length_eq

theorem stdRotate_perm (v : List Int) (f m l : Int) (v' : List Int)
    (h : stdRotate v f m l = .ok v') : v'.Perm v := by
  unfold stdRotate at h
  split at h
  · rename_i hb
    injection h with h
    subst h
    exact rotate_perm v _ _ _ (Int.toNat_le_toNat hb.2.1) (Int.toNat_le_toNat hb.2.2.1)
  · cases h

theorem stdRotate_isOk (v : List Int) (f m l : Int) (h0 : 0 ≤ f) (hfm : f ≤ m) (hml : m ≤ l)
    (hl : l ≤ (v.length : Int)) : ∃ v', stdRotate v f m l = .ok v' ∧ v'.Perm v := by
  have hb : 0 ≤ f ∧ f ≤ m ∧ m ≤ l ∧ l ≤ (v.length : Int) := ⟨h0, hfm, hml, hl⟩
  have e : stdRotate v f m l = .ok (v.take f.toNat
      ++ (v.drop m.toNat).take (l.toNat - m.toNat)
      ++ (v.drop f.toNat).take (m.toNat - f.toNat) ++ v.drop l.toNat) := by
    simp only [stdRotate, hb, and_self, if_true]
  exact ⟨_, e, stdRotate_perm _ _ _ _ _ e⟩

theorem tripleCut_isOk (c : Cipher) (lo hi : Int) (hlen : c.key_.length = 54)
    (h1 : 1 ≤ lo) (h2 : lo ≤ hi) (h3 : hi ≤ 54) :
    ∃ k, tripleCut c lo hi = .ok { c with key_ := k } ∧ k.Perm c.key_ := by
  obtain ⟨k1, e1, p1⟩ := stdRotate_isOk c.key_ 0 hi c.key_.length (le_refl _) (by omega)
    (by omega) (le_refl _)
  have hk1 : k1.length = 54 := by rw [p1.length_eq, hlen]
  obtain ⟨k2, e2, p2⟩ := stdRotate_isOk k1 (NCARDS - hi) (NCARDS - hi + (lo - 1)) k1.length
    (by simp only [NCARDS]; omega) (by omega) (by simp only [NCARDS]; omega) (le_refl _)
  refine ⟨k2, ?_, p2.trans p1⟩
  simp only [tripleCut, e1, e2, bind, Except.bind, pure, Except.pure]

theorem countCut_isOk (c : Cipher) (pos : Int) (hlen : c.key_.length = 54)
    (h1 : 1 ≤ pos) : ∃ k, countCut c pos = .ok { c with key_ := k } ∧ k.Perm c.key_ := by
  unfold countCut
  split
  · exact ⟨c.key_, rfl, List.Perm.refl _⟩
  · obtain ⟨k, e, p⟩ := stdRotate_isOk c.key_ 0 pos ((c.key_.length : Int) - 1) (le_refl _)
      (by omega) (by omega) (by omega)
    exact ⟨k, by simp only [e, bind, Except.bind, pure, Except.pure], p⟩

/-! ## The pair of jokers -/

theorem findJokersLoop_skip (pre l : List Int) (idx : Int) (out : Int × Int) (n : Int)
    (h : ∀ z ∈ pre, z ≤ 52) :
    findJokersLoop (pre ++ l) idx out n = findJokersLoop l (idx + pre.length) out n := by
  induction pre generalizing idx with
  | nil => simp
  | cons a t ih =>
    have ha : ¬ a > 52 := by
      have := h a (List.mem_cons_self _ _)
      omega
    have ht : ∀ z ∈ t, z ≤ 52 := fun z hz => h z (List.mem_cons_of_mem _ hz)
    have e : idx + 1 + (t.length : Int) = idx + ((t.length + 1 : Nat) : Int) := by
      push_cast
      ring
    rw [List.cons_append, findJokersLoop, if_neg ha, ih _ ht, e, List.length_cons]

theorem findJokersLoop_two (pre mid post : List Int) (x y : Int) (hx : 52 < x) (hy : 52 < y)
    (hpre : ∀ z ∈ pre, z ≤ 52) (hmid : ∀ z ∈ mid, z ≤ 52) (hpost : ∀ z ∈ post, z ≤ 52) :
    findJokersLoop (pre ++ x :: (mid ++ y :: post)) 0 (0, 0) 0
      = (((pre.length : Int) + 1, (pre.length : Int) + 1 + mid.length + 1), 2) := by
  have hnil : ∀ (idx : Int) (out : Int × Int) (n : Int),
      findJokersLoop post idx out n = (out, n) := by
    intro idx out n
    have := findJokersLoop_skip post [] idx out n hpost
    simpa [findJokersLoop] using this
  rw [findJokersLoop_skip _ _ _ _ _ hpre]
  simp only [findJokersLoop, gt_iff_lt, hx, if_true]
  rw [findJokersLoop_skip _ _ _ _ _ hmid]
  simp only [findJokersLoop, gt_iff_lt, hy, if_true, hnil]
  simp

theorem fullDeck_nodup : fullDeck.Nodup := by
  unfold fullDeck
  apply List.Nodup.map _ (List.nodup_range 54)
  intro a b h
  simpa using h

theorem ValidDeck.nodup {d : List Int} (h : ValidDeck d) : d.Nodup :=
  (List.Perm.nodup_iff h).2 fullDeck_nodup

/-- A valid deck splits around its two jokers. -/
theorem ValidDeck.split_jokers {d : List Int} (h : ValidDeck d) :
    ∃ pre mid post x y, d = pre ++ x :: (mid ++ y :: post) ∧ 52 < x ∧ 52 < y ∧
      (∀ z ∈ pre, z ≤ 52) ∧ (∀ z ∈ mid, z ≤ 52) ∧ (∀ z ∈ post, z ≤ 52) := by
  have hnd := h.nodup
  have hb := h.mem_iff
  have key : ∀ (a b : Int) (s m t : List Int), d = s ++ a :: (m ++ b :: t) →
      52 < a → 52 < b → ∃ pre mid post x y, d = pre ++ x :: (mid ++ y :: post) ∧ 52 < x ∧
        52 < y ∧ (∀ z ∈ pre, z ≤ 52) ∧ (∀ z ∈ mid, z ≤ 52) ∧ (∀ z ∈ post, z ≤ 52) := by
    intro a b s m t hd ha hb2
    have ha54 : a ≤ 54 := ((hb a).1 (by rw [hd]; simp)).2
    have hb54 : b ≤ 54 := ((hb b).1 (by rw [hd]; simp)).2
    rw [hd] at hnd
    have hab : a ≠ b := by
      intro e
      subst e
      have := (List.nodup_append.1 hnd).2.1
      simp at this
    have other : ∀ z, z ∈ s ∨ z ∈ m ∨ z ∈ t → z ≤ 52 := by
      intro z hz
      have hz54 : z ≤ 54 := ((hb z).1 (by rw [hd]; simp; tauto)).2
      have hza : z ≠ a := by
        intro e
        subst e
        rcases hz with hz | hz | hz
        · exact (List.nodup_append.1 hnd).2.2 hz (List.mem_cons_self _ _)
        · have := (List.nodup_append.1 hnd).2.1
          simp [hz] at this
        · have := (List.nodup_append.1 hnd).2.1
          simp [hz] at this
      have hzb : z ≠ b := by
        intro e
        subst e
        rcases hz with hz | hz | hz
        · exact (List.nodup_append.1 hnd).2.2 hz (by simp)
        · have := (List.nodup_append.1 hnd).2.1
          rw [List.nodup_cons] at this
          exact (List.nodup_append.1 this.2).2.2 hz (List.mem_cons_self _ _)
        · have := (List.nodup_append.1 hnd).2.1
          rw [List.nodup_cons] at this
          have h2 := (List.nodup_append.1 this.2).2.1
          simp [hz] at h2
      omega
    exact ⟨s, m, t, a, b, hd, ha, hb2, fun z hz => other z (Or.inl hz),
      fun z hz => other z (Or.inr (Or.inl hz)), fun z hz => other z (Or.inr (Or.inr hz))⟩
  have h53 : (53 : Int) ∈ d := (hb 53).2 (by omega)
  have h54 : (54 : Int) ∈ d := (hb 54).2 (by omega)
  obtain ⟨s, t, hst⟩ := List.append_of_mem h53
  rw [hst] at h54
  rcases List.mem_append.1 h54 with hs | ht
  · obtain ⟨s1, s2, hs12⟩ := List.append_of_mem hs
    exact key 54 53 s1 s2 t (by rw [hst, hs12]; simp) (by omega) (by omega)
  · rcases List.mem_cons.1 ht with e | ht
    · omega
    · obtain ⟨t1, t2, ht12⟩ := List.append_of_mem ht
      exact key 53 54 s t1 t2 (by rw [hst, ht12]) (by omega) (by omega)

theorem findJokers_valid (c : Cipher) (h : ValidDeck c.key_) :
    ∃ lo hi : Int, findJokers c = .ok (lo, hi) ∧ 1 ≤ lo ∧ lo < hi ∧ hi ≤ 54 := by
  obtain ⟨pre, mid, post, x, y, hd, hx, hy, hpre, hmid, hpost⟩ := h.split_jokers
  have hlen := h.length_eq
  rw [hd] at hlen
  simp only [List.length_append, List.length_cons] at hlen
  refine ⟨(pre.length : Int) + 1, (pre.length : Int) + 1 + mid.length + 1, ?_, by omega,
    by omega, by omega⟩
  simp only [findJokers, hd, findJokersLoop_two pre mid post x y hx hy hpre hmid hpost]
  simp

/-! ## One round on a valid deck -/

theorem findOutput_valid (c : Cipher) (h : ValidDeck c.key_) :
    ∃ out, findOutput c = .ok out ∧ (out = -1 ∨ (1 ≤ out ∧ out ≤ 26)) := by
  have hlen := h.length_eq
  have h0 : (0 : Int).toNat < c.key_.length := by simp [hlen]
  have htop := h.getElem_bounds _ h0
  have h1 : (c.key_[(0 : Int).toNat] - 1).toNat < c.key_.length := by omega
  have hout := h.getElem_bounds _ h1
  have hno : ¬ (c.key_[(c.key_[(0 : Int).toNat] - 1).toNat] < 0
      ∨ c.key_[(c.key_[(0 : Int).toNat] - 1).toNat] > NCARDS) := by
    simp only [NCARDS]
    omega
  simp only [findOutput, readAt_int _ 0 (le_refl _) h0, readAt_int _ _ (by omega) h1, bind,
    Except.bind, pure, Except.pure, hno, if_false, RADIX]
  refine ⟨_, rfl, ?_⟩
  split <;> split <;> omega

theorem roundDeck_valid (c : Cipher) (h : ValidDeck c.key_) :
    ∃ k, roundDeck c = .ok { c with key_ := k } ∧ ValidDeck k := by
  have hlen := h.length_eq
  obtain ⟨k1, e1, p1⟩ := moveJokerA_eq c hlen ((h.mem_iff 53).2 (by omega))
  have v1 : ValidDeck k1 := p1.trans h
  obtain ⟨k2, e2, p2⟩ := moveJokerB_eq { c with key_ := k1 } v1.length_eq
    ((v1.mem_iff 54).2 (by omega))
  have v2 : ValidDeck k2 := p2.trans v1
  obtain ⟨lo, hi, e3, hlo, hlohi, hhi⟩ := findJokers_valid { c with key_ := k2 } v2
  obtain ⟨k3, e4, p3⟩ := tripleCut_isOk { c with key_ := k2 } lo hi v2.length_eq hlo
    (by omega) hhi
  have v3 : ValidDeck k3 := p3.trans v2
  have h53 : (NCARDS - 1).toNat < k3.length := by
    rw [v3.length_eq]
    decide
  have e5 := readAt_int k3 (NCARDS - 1) (by decide) h53
  obtain ⟨k4, e6, p4⟩ := countCut_isOk { c with key_ := k3 } k3[(NCARDS - 1).toNat]
    v3.length_eq (v3.getElem_bounds _ h53).1
  refine ⟨k4, ?_, p4.trans v3⟩
  simp only [roundDeck, e1, e2, e3, e4, e5, e6, bind, Except.bind]

theorem roundBody_valid (c : Cipher) (count : Nat) (h : ValidDeck c.key_)
    (hc : count < c.keystream_.length) :
    ∃ k out, roundBody c count
        = .ok { c with key_ := k, keystream_ := c.keystream_.set count out } ∧
      ValidDeck k ∧ roundDeck c = .ok { c with key_ := k } ∧
      findOutput { c with key_ := k } = .ok out ∧ (out = -1 ∨ (1 ≤ out ∧ out ≤ 26)) := by
  obtain ⟨k, e1, v⟩ := roundDeck_valid c h
  obtain ⟨out, e2, ho⟩ := findOutput_valid { c with key_ := k } v
  refine ⟨k, out, ?_, v, e1, e2, ho⟩
  simp only [roundBody, e1, e2, writeAt_nat _ _ _ hc, bind, Except.bind, pure, Except.pure]

/-! ## The round touches `keystream_` only through the final write -/

theorem map_bind_except {ε α β γ : Type} (x : Except ε α) (f : α → Except ε β) (g : β → γ) :
    (x.bind f).map g = x.bind (fun a => (f a).map g) := by
  cases x <;> rfl

theorem map_ok_except {ε α β : Type} (a : α) (g : α → β) :
    (Except.ok a : Except ε α).map g = .ok (g a) := rfl

theorem bind_map_except {ε α β γ : Type} (x : Except ε α) (g : α → β) (f : β → Except ε γ) :
    (x.map g).bind f = x.bind (fun a => f (g a)) := by
  cases x <;> rfl

theorem swapCards_frame (c : Cipher) (ks : List Int) (p1 p2 : Int) :
    swapCards { c with keystream_ := ks } p1 p2
      = (swapCards c p1 p2).map (fun c1 => { c1 with keystream_ := ks }) := by
  simp only [swapCards, bind, pure, Except.pure, map_bind_except, map_ok_except]

theorem tripleCut_frame (c : Cipher) (ks : List Int) (lo hi : Int) :
    tripleCut { c with keystream_ := ks } lo hi
      = (tripleCut c lo hi).map (fun c1 => { c1 with keystream_ := ks }) := by
  simp only [tripleCut, bind, pure, Except.pure, map_bind_except, map_ok_except]

theorem countCut_frame (c : Cipher) (ks : List Int) (pos : Int) :
    countCut { c with keystream_ := ks } pos
      = (countCut c pos).map (fun c1 => { c1 with keystream_ := ks }) := by
  unfold countCut
  split
  · rfl
  · simp only [bind, pure, Except.pure, map_bind_except, map_ok_except]

theorem moveJokerA_frame (c : Cipher) (ks : List Int) :
    moveJokerA { c with keystream_ := ks }
      = (moveJokerA c).map (fun c1 => { c1 with keystream_ := ks }) := by
  have e : findJokerA { c with keystream_ := ks } = findJokerA c := rfl
  simp only [moveJokerA, bind, e, map_bind_except, swapCards_frame]

theorem moveJokerB_frame (c : Cipher) (ks : List Int) :
    moveJokerB { c with keystream_ := ks }
      = (moveJokerB c).map (fun c1 => { c1 with keystream_ := ks }) := by
  have e : findJokerB { c with keystream_ := ks } = findJokerB c := rfl
  simp only [moveJokerB, bind, e, map_bind_except, swapCards_frame, bind_map_except]

theorem roundDeck_frame (c : Cipher) (ks : List Int) :
    roundDeck { c with keystream_ := ks }
      = (roundDeck c).map (fun c1 => { c1 with keystream_ := ks }) := by
  have e : ∀ c2 : Cipher, findJokers { c2 with keystream_ := ks } = findJokers c2 :=
    fun _ => rfl
  simp only [roundDeck, bind, e, map_bind_except, moveJokerA_frame, moveJokerB_frame,
    tripleCut_frame, countCut_frame, bind_map_except]

/-- The round body in terms of the deck part, the output and the write into
`keystream_`; the deck part does not look at `keystream_`. -/
theorem roundBody_frame (c : Cipher) (ks : List Int) (count : Nat) :
    roundBody { c with keystream_ := ks } count
      = (roundDeck c).bind (fun c1 => (findOutput c1).bind (fun out =>
          (writeAt ks count out).map (fun ks1 => { c1 with keystream_ := ks1 }))) := by
  have e : ∀ c2 : Cipher, findOutput { c2 with keystream_ := ks } = findOutput c2 :=
    fun _ => rfl
  simp only [roundBody, bind, roundDeck_frame, bind_map_except, e, pure, Except.pure]
  rfl

/-! ## The keystream loop -/

theorem generateKeystreamLoop_done (fuel : Nat) (n : Int) (count : Nat) (c : Cipher)
    (h : ¬ (count : Int) < n) : generateKeystreamLoop fuel n count c = .ok c := by
  cases fuel <;> simp [generateKeystreamLoop, h]

theorem generateKeystreamLoop_succ (fuel : Nat) (n : Int) (count : Nat) (c : Cipher)
    (h : (count : Int) < n) :
    generateKeystreamLoop (fuel + 1) n count c
      = (roundBody c count).bind (fun c1 => (readAt c1.keystream_ count).bind (fun k =>
          if k < 0 then generateKeystreamLoop fuel n count c1
          else generateKeystreamLoop fuel n (count + 1) c1)) := by
  rw [generateKeystreamLoop, if_pos h]
  cases roundBody c count with
  | error e => rfl
  | ok c1 =>
    simp only [Except.bind]
    cases readAt c1.keystream_ count with
    | error e => rfl
    | ok k => rfl

theorem take_set_self (ks : List Int) (count : Nat) (x : Int) :
    (ks.set count x).take count = ks.take count := by
  rw [List.set_take, List.set_eq_of_length_le]
  simp

theorem take_succ_set (ks : List Int) (count : Nat) (x : Int) (h : count < ks.length) :
    (ks.set count x).take (count + 1) = ks.take count ++ [x] := by
  have h2 : count < (ks.set count x).length := by simpa using h
  rw [List.take_succ, take_set_self, List.getElem?_eq_getElem h2, List.getElem_set_self]
  rfl

/-- The loop does not depend on what `keystream_` held beyond the entries already produced. -/
theorem generateKeystreamLoop_congr (fuel : Nat) (n : Int) (count : Nat) (c : Cipher)
    (ks1 ks2 : List Int) (h1 : (ks1.length : Int) = n) (h2 : ks2.length = ks1.length)
    (ht : ks1.take count = ks2.take count) :
    generateKeystreamLoop fuel n count { c with keystream_ := ks1 }
      = generateKeystreamLoop fuel n count { c with keystream_ := ks2 } := by
  induction fuel generalizing count c ks1 ks2 with
  | zero =>
    by_cases hc : (count : Int) < n
    · simp [generateKeystreamLoop, hc]
    · have e1 : ks1.take count = ks1 := List.take_of_length_le (by omega)
      have e2 : ks2.take count = ks2 := List.take_of_length_le (by omega)
      rw [e1, e2] at ht
      rw [ht]
  | succ fuel ih =>
    by_cases hc : (count : Int) < n
    · have hc1 : count < ks1.length := by omega
      have hc2 : count < ks2.length := by omega
      rw [generateKeystreamLoop_succ _ _ _ _ hc, generateKeystreamLoop_succ _ _ _ _ hc,
        roundBody_frame, roundBody_frame]
      cases roundDeck c with
      | error e => rfl
      | ok c1 =>
        simp only [Except.bind]
        cases findOutput c1 with
        | error e => rfl
        | ok out =>
          have g1 : count < (ks1.set count out).length := by simpa using hc1
          have g2 : count < (ks2.set count out).length := by simpa using hc2
          simp only [writeAt_nat _ _ _ hc1, writeAt_nat _ _ _ hc2, Except.map,
            readAt_nat _ _ g1, readAt_nat _ _ g2, List.getElem_set_self]
          split
          · exact ih count c1 _ _ (by simpa using h1) (by simp [h2])
              (by rw [take_set_self, take_set_self, ht])
          · exact ih (count + 1) c1 _ _ (by simpa using h1) (by simp [h2])
              (by rw [take_succ_set _ _ _ hc1, take_succ_set _ _ _ hc2, ht])
    · have e1 : ks1.take count = ks1 := List.take_of_length_le (by omega)
      have e2 : ks2.take count = ks2 := List.take_of_length_le (by omega)
      rw [e1, e2] at ht
      rw [ht]

theorem resize_length (v : List Int) (n : Int) (ks : List Int) (h : resize v n = .ok ks) :
    (ks.length : Int) = n ∧ 0 ≤ n := by
  unfold resize at h
  split at h
  · injection h with h
    subst h
    simp only [List.length_append, List.length_take, List.length_replicate]
    omega
  · cases h

/-- The result of `generateKeystream` depends on the state only through `key_` and
`initKey_`. -/
theorem generateKeystream_congr (fuel : Nat) (n : Int) (c1 c2 : Cipher)
    (hk : c1.key_ = c2.key_) (hi : c1.initKey_ = c2.initKey_) :
    generateKeystream fuel n c1 = generateKeystream fuel n c2 := by
  unfold generateKeystream
  by_cases hn : 0 ≤ n
  · have r1 : resize c1.keystream_ n
        = .ok (c1.keystream_.take n.toNat ++ List.replicate (n.toNat - c1.keystream_.length) 0) := by
      simp [resize, hn]
    have r2 : resize c2.keystream_ n
        = .ok (c2.keystream_.take n.toNat ++ List.replicate (n.toNat - c2.keystream_.length) 0) := by
      simp [resize, hn]
    have l1 := (resize_length _ _ _ r1).1
    have l2 := (resize_length _ _ _ r2).1
    have e := generateKeystreamLoop_congr fuel n 0 c1
      (c1.keystream_.take n.toNat ++ List.replicate (n.toNat - c1.keystream_.length) 0)
      (c2.keystream_.take n.toNat ++ List.replicate (n.toNat - c2.keystream_.length) 0) l1
      (by have := l1; have := l2; omega) (by simp)
    have e2 : ({ c2 with keystream_ := c2.keystream_.take n.toNat
        ++ List.replicate (n.toNat - c2.keystream_.length) 0 } : Cipher)
        = { c1 with keystream_ := c2.keystream_.take n.toNat
        ++ List.replicate (n.toNat - c2.keystream_.length) 0 } := by
      rw [hk, hi]
    simp only [r1, r2, bind, Except.bind, e, e2]
  · simp [resize, hn, bind, Except.bind]

/-- Loop invariant on a valid deck: the deck stays valid, `keystream_` keeps its
length and the entries produced so far lie in 1..26. -/
theorem generateKeystreamLoop_valid (fuel : Nat) (n : Int) (count : Nat) (c c' : Cipher)
    (hv : ValidDeck c.key_) (hlen : (c.keystream_.length : Int) = n)
    (hks : ∀ x ∈ c.keystream_.take count, 1 ≤ x ∧ x ≤ 26)
    (h : generateKeystreamLoop fuel n count c = .ok c') :
    ValidDeck c'.key_ ∧ (c'.keystream_.length : Int) = n ∧
      (∀ x ∈ c'.keystream_, 1 ≤ x ∧ x ≤ 26) ∧ c'.initKey_ = c.initKey_ := by
  induction fuel generalizing count c with
  | zero =>
    by_cases hc : (count : Int) < n
    · simp [generateKeystreamLoop, hc] at h
    · rw [generateKeystreamLoop_done _ _ _ _ hc] at h
      injection h with h
      subst h
      have e1 : c.keystream_.take count = c.keystream_ := List.take_of_length_le (by omega)
      rw [e1] at hks
      exact ⟨hv, hlen, hks, rfl⟩
  | succ fuel ih =>
    by_cases hc : (count : Int) < n
    · have hc1 : count < c.keystream_.length := by omega
      obtain ⟨k, out, e, v, _, _, ho⟩ := roundBody_valid c count hv hc1
      have g1 : count < (c.keystream_.set count out).length := by simpa using hc1
      rw [generateKeystreamLoop_succ _ _ _ _ hc, e] at h
      simp only [Except.bind, readAt_nat _ _ g1, List.getElem_set_self] at h
      split at h
      · exact ih count { c with key_ := k, keystream_ := c.keystream_.set count out } v
          (by simpa using hlen)
          (by simpa only [take_set_self] using hks) h
      · rename_i hneg
        refine ih (count + 1) { c with key_ := k, keystream_ := c.keystream_.set count out } v
          (by simpa using hlen) ?_ h
        intro x hx
        simp only [take_succ_set _ _ _ hc1, List.mem_append, List.mem_singleton] at hx
        rcases hx with hx | hx
        · exact hks x hx
        · subst hx
          omega
    · rw [generateKeystreamLoop_done _ _ _ _ hc] at h
      injection h with h
      subst h
      have e1 : c.keystream_.take count = c.keystream_ := List.take_of_length_le (by omega)
      rw [e1] at hks
      exact ⟨hv, hlen, hks, rfl⟩

theorem generateKeystream_valid (fuel : Nat) (n : Int) (c : Cipher) (ks : List Int)
    (c' : Cipher) (hv : ValidDeck c.key_) (h : generateKeystream fuel n c = .ok (ks, c')) :
    (ks.length : Int) = n ∧ (∀ x ∈ ks, 1 ≤ x ∧ x ≤ 26) ∧ c'.keystream_ = ks ∧
      ValidDeck c'.key_ ∧ c'.initKey_ = c.initKey_ := by
  unfold generateKeystream at h
  cases hr : resize c.keystream_ n with
  | error e => simp [hr, bind, Except.bind] at h
  | ok ks0 =>
    cases hl : generateKeystreamLoop fuel n 0 { c with keystream_ := ks0 } with
    | error e => simp [hr, hl, bind, Except.bind] at h
    | ok c1 =>
      simp only [hr, hl, bind, Except.bind, pure, Except.pure, Except.ok.injEq,
        Prod.mk.injEq] at h
      obtain ⟨h1, h2⟩ := h
      subst h2
      subst h1
      obtain ⟨a, b, d, e⟩ := generateKeystreamLoop_valid fuel n 0
        { c with keystream_ := ks0 } c1 hv
        (resize_length _ _ _ hr).1 (by simp) hl
      exact ⟨b, d, rfl, a, e⟩

/-! ## The combination loops of `encrypt` and `decrypt` -/

theorem encryptLoop_eq (text ks : List Int) (todo i : Nat) (ct : List Int)
    (ht : text.length = i + todo) (hk : ks.length = i + todo) (hc : ct.length = i + todo) :
    encryptLoop text ks todo i ct
      = .ok (ct.take i ++ List.zipWith (fun p k => if p + k > RADIX then p + k - RADIX else p + k)
          (text.drop i) (ks.drop i)) := by
  induction todo generalizing i ct with
  | zero =>
    have e1 : text.drop i = [] := List.drop_eq_nil_of_le (by omega)
    have e2 : ct.take i = ct := List.take_of_length_le (by omega)
    simp [encryptLoop, e1, e2]
  | succ todo ih =>
    have it : i < text.length := by omega
    have ik : i < ks.length := by omega
    have ic : i < ct.length := by omega
    have ic2 : i < (ct.set i (text[i] + ks[i])).length := by simpa using ic
    have hstep : ∀ ct2 : List Int, ct2.length = ct.length → ct2.take i = ct.take i →
        encryptLoop text ks todo (i + 1)
            (ct2.set i (if text[i] + ks[i] > RADIX then text[i] + ks[i] - RADIX
              else text[i] + ks[i]))
          = .ok (ct.take i ++ List.zipWith
              (fun p k => if p + k > RADIX then p + k - RADIX else p + k)
              (text.drop i) (ks.drop i)) := by
      intro ct2 hl htk
      have ic3 : i < ct2.length := by omega
      rw [ih (i + 1) _ (by omega) (by omega) (by simp; omega), take_succ_set _ _ _ ic3, htk,
        List.drop_eq_getElem_cons it, List.drop_eq_getElem_cons ik]
      simp only [List.zipWith_cons_cons, List.append_assoc, List.singleton_append]
    simp only [encryptLoop, readAt_nat _ _ it, readAt_nat _ _ ik, writeAt_nat _ _ _ ic,
      readAt_nat _ _ ic2, List.getElem_set_self, bind, Except.bind]
    by_cases hgt : text[i] + ks[i] > RADIX
    · simp only [hgt, if_true, writeAt_nat _ _ _ ic2, List.set_set]
      have := hstep ct rfl rfl
      simpa only [hgt, if_true] using this
    · simp only [hgt, if_false, pure, Except.pure]
      have := hstep ct rfl rfl
      simpa only [hgt, if_false] using this

theorem decryptLoop_eq (ctext ks : List Int) (todo i : Nat) (pt : List Int)
    (ht : ctext.length = i + todo) (hk : ks.length = i + todo) (hc : pt.length = i + todo) :
    decryptLoop ctext ks todo i pt
      = .ok (pt.take i ++ List.zipWith (fun t k => if t - k < 1 then t - k + RADIX else t - k)
          (ctext.drop i) (ks.drop i)) := by
  induction todo generalizing i pt with
  | zero =>
    have e1 : ctext.drop i = [] := List.drop_eq_nil_of_le (by omega)
    have e2 : pt.take i = pt := List.take_of_length_le (by omega)
    simp [decryptLoop, e1, e2]
  | succ todo ih =>
    have it : i < ctext.length := by omega
    have ik : i < ks.length := by omega
    have ic : i < pt.length := by omega
    have ic2 : i < (pt.set i (ctext[i] - ks[i])).length := by simpa using ic
    have hstep : decryptLoop ctext ks todo (i + 1)
            (pt.set i (if ctext[i] - ks[i] < 1 then ctext[i] - ks[i] + RADIX
              else ctext[i] - ks[i]))
          = .ok (pt.take i ++ List.zipWith
              (fun t k => if t - k < 1 then t - k + RADIX else t - k)
              (ctext.drop i) (ks.drop i)) := by
      rw [ih (i + 1) _ (by omega) (by omega) (by simp; omega), take_succ_set _ _ _ ic,
        List.drop_eq_getElem_cons it, List.drop_eq_getElem_cons ik]
      simp only [List.zipWith_cons_cons, List.append_assoc, List.singleton_append]
    simp only [decryptLoop, readAt_nat _ _ it, readAt_nat _ _ ik, writeAt_nat _ _ _ ic,
      readAt_nat _ _ ic2, List.getElem_set_self, bind, Except.bind]
    by_cases hlt : ctext[i] - ks[i] < 1
    · simp only [hlt, if_true, writeAt_nat _ _ _ ic2, List.set_set]
      simpa only [hlt, if_true] using hstep
    · simp only [hlt, if_false, pure, Except.pure]
      simpa only [hlt, if_false] using hstep

theorem convertCharsToInts_length (s : List Char) : (convertCharsToInts s).length = s.length := by
  simp [convertCharsToInts]

/-- The member `encrypt` once the keystream is known. -/
theorem encrypt_eq (fuel : Nat) (P : List Char) (c : Cipher) (ks : List Int) (c1 : Cipher)
    (h : generateKeystream fuel P.length { c with key_ := c.initKey_ } = .ok (ks, c1))
    (hks : c1.keystream_ = ks) (hlen : ks.length = P.length) :
    encrypt fuel P c = .ok (convertIntsToChars (List.zipWith
      (fun p k => if p + k > RADIX then p + k - RADIX else p + k)
      (convertCharsToInts P) ks), c1) := by
  have e := encryptLoop_eq (convertCharsToInts P) ks P.length 0 (List.replicate P.length 0)
    (by simp [convertCharsToInts_length]) (by simp [hlen]) (by simp)
  simp only [encrypt, h, hks, e, bind, Except.bind, pure, Except.pure]
  simp

/-- The member `decrypt` once the keystream is known. -/
theorem decrypt_eq (fuel : Nat) (C : List Char) (c : Cipher) (ks : List Int) (c1 : Cipher)
    (h : generateKeystream fuel C.length { c with key_ := c.initKey_ } = .ok (ks, c1))
    (hks : c1.keystream_ = ks) (hlen : ks.length = C.length) :
    decrypt fuel C c = .ok (convertIntsToChars (List.zipWith
      (fun t k => if t - k < 1 then t - k + RADIX else t - k)
      (convertCharsToInts C) ks), c1) := by
  have e := decryptLoop_eq (convertCharsToInts C) ks C.length 0 (List.replicate C.length 0)
    (by simp [convertCharsToInts_length]) (by simp [hlen]) (by simp)
  simp only [decrypt, h, hks, e, bind, Except.bind, pure, Except.pure]
  simp

/-! ## More fuel does not change a finished run -/

theorem generateKeystreamLoop_step (fuel : Nat) (n : Int) (count : Nat) (c c' : Cipher)
    (h : generateKeystreamLoop fuel n count c = .ok c') :
    generateKeystreamLoop (fuel + 1) n count c = .ok c' := by
  induction fuel generalizing count c with
  | zero =>
    by_cases hc : (count : Int) < n
    · simp [generateKeystreamLoop, hc] at h
    · rw [generateKeystreamLoop_done _ _ _ _ hc] at h
      rw [generateKeystreamLoop_done _ _ _ _ hc, h]
  | succ fuel ih =>
    by_cases hc : (count : Int) < n
    · rw [generateKeystreamLoop_succ _ _ _ _ hc] at h
      rw [generateKeystreamLoop_succ _ _ _ _ hc]
      cases hb : roundBody c count with
      | error e => simp [hb, Except.bind] at h
      | ok c1 =>
        cases hr : readAt c1.keystream_ count with
        | error e => simp [hb, hr, Except.bind] at h
        | ok k =>
          simp only [hb, hr, Except.bind] at h ⊢
          by_cases hk : k < 0
          · rw [if_pos hk] at h ⊢
            exact ih _ _ h
          · rw [if_neg hk] at h ⊢
            exact ih _ _ h
    · rw [generateKeystreamLoop_done _ _ _ _ hc] at h
      rw [generateKeystreamLoop_done _ _ _ _ hc, h]

theorem generateKeystreamLoop_mono (fuel fuel' : Nat) (n : Int) (count : Nat) (c c' : Cipher)
    (hf : fuel ≤ fuel') (h : generateKeystreamLoop fuel n count c = .ok c') :
    generateKeystreamLoop fuel' n count c = .ok c' := by
  induction fuel' with
  | zero =>
    have : fuel = 0 := by omega
    subst this
    exact h
  | succ m ih =>
    by_cases hm : fuel ≤ m
    · exact generateKeystreamLoop_step _ _ _ _ _ (ih hm)
    · have : fuel = m + 1 := by omega
      subst this
      exact h

theorem generateKeystream_mono (fuel fuel' : Nat) (n : Int) (c : Cipher)
    (r : List Int × Cipher) (hf : fuel ≤ fuel') (h : generateKeystream fuel n c = .ok r) :
    generateKeystream fuel' n c = .ok r := by
  unfold generateKeystream at h
  unfold generateKeystream
  cases hr : resize c.keystream_ n with
  | error e => simp [hr, bind, Except.bind] at h
  | ok ks0 =>
    cases hl : generateKeystreamLoop fuel n 0 { c with keystream_ := ks0 } with
    | error e => simp [hr, hl, bind, Except.bind] at h
    | ok c1 =>
      have hl2 := generateKeystreamLoop_mono fuel fuel' n 0 _ _ hf hl
      simp only [hr, hl, bind, Except.bind] at h
      simp only [hl2, bind, Except.bind, h]

/-! ## Letter arithmetic -/

theorem zipWith_enc_range (ps ks : List Int) (hp : ∀ p ∈ ps, 1 ≤ p ∧ p ≤ 26)
    (hk : ∀ k ∈ ks, 1 ≤ k ∧ k ≤ 26) :
    ∀ x ∈ List.zipWith (fun p k => if p + k > RADIX then p + k - RADIX else p + k) ps ks,
      1 ≤ x ∧ x ≤ 26 := by
  induction ps generalizing ks with
  | nil => simp
  | cons p ps ih =>
    cases ks with
    | nil => simp
    | cons k ks =>
      intro x hx
      simp only [List.zipWith_cons_cons, List.mem_cons] at hx
      have h1 := hp p (List.mem_cons_self _ _)
      have h2 := hk k (List.mem_cons_self _ _)
      rcases hx with hx | hx
      · subst hx
        simp only [RADIX]
        split <;> omega
      · exact ih ks (fun q hq => hp q (List.mem_cons_of_mem _ hq))
          (fun q hq => hk q (List.mem_cons_of_mem _ hq)) x hx

theorem zipWith_dec_enc (ps ks : List Int) (hp : ∀ p ∈ ps, 1 ≤ p ∧ p ≤ 26)
    (hk : ∀ k ∈ ks, 1 ≤ k ∧ k ≤ 26) (hlen : ks.length = ps.length) :
    List.zipWith (fun t k => if t - k < 1 then t - k + RADIX else t - k)
      (List.zipWith (fun p k => if p + k > RADIX then p + k - RADIX else p + k) ps ks) ks
      = ps := by
  induction ps generalizing ks with
  | nil => simp
  | cons p ps ih =>
    cases ks with
    | nil => simp at hlen
    | cons k ks =>
      have h1 := hp p (List.mem_cons_self _ _)
      have h2 := hk k (List.mem_cons_self _ _)
      simp only [List.zipWith_cons_cons, List.cons.injEq]
      constructor
      · simp only [RADIX]
        split <;> split <;> omega
      · exact ih ks (fun q hq => hp q (List.mem_cons_of_mem _ hq))
          (fun q hq => hk q (List.mem_cons_of_mem _ hq)) (by simpa using hlen)

theorem zipWith_enc_dec (ts ks : List Int) (ht : ∀ t ∈ ts, 1 ≤ t ∧ t ≤ 26)
    (hk : ∀ k ∈ ks, 1 ≤ k ∧ k ≤ 26) (hlen : ks.length = ts.length) :
    List.zipWith (fun p k => if p + k > RADIX then p + k - RADIX else p + k)
      (List.zipWith (fun t k => if t - k < 1 then t - k + RADIX else t - k) ts ks) ks
      = ts := by
  induction ts generalizing ks with
  | nil => simp
  | cons t ts ih =>
    cases ks with
    | nil => simp at hlen
    | cons k ks =>
      have h1 := ht t (List.mem_cons_self _ _)
      have h2 := hk k (List.mem_cons_self _ _)
      simp only [List.zipWith_cons_cons, List.cons.injEq]
      constructor
      · simp only [RADIX]
        split <;> split <;> omega
      · exact ih ks (fun q hq => ht q (List.mem_cons_of_mem _ hq))
          (fun q hq => hk q (List.mem_cons_of_mem _ hq)) (by simpa using hlen)

theorem zipWith_dec_range (ts ks : List Int) (ht : ∀ t ∈ ts, 1 ≤ t ∧ t ≤ 26)
    (hk : ∀ k ∈ ks, 1 ≤ k ∧ k ≤ 26) :
    ∀ x ∈ List.zipWith (fun t k => if t - k < 1 then t - k + RADIX else t - k) ts ks,
      1 ≤ x ∧ x ≤ 26 := by
  induction ts generalizing ks with
  | nil => simp
  | cons t ts ih =>
    cases ks with
    | nil => simp
    | cons k ks =>
      intro x hx
      simp only [List.zipWith_cons_cons, List.mem_cons] at hx
      have h1 := ht t (List.mem_cons_self _ _)
      have h2 := hk k (List.mem_cons_self _ _)
      rcases hx with hx | hx
      · subst hx
        simp only [RADIX]
        split <;> omega
      · exact ih ks (fun q hq => ht q (List.mem_cons_of_mem _ hq))
          (fun q hq => hk q (List.mem_cons_of_mem _ hq)) x hx

theorem convertCharsToInts_range (s : List Char) (hs : LowerCase s) :
    ∀ x ∈ convertCharsToInts s, 1 ≤ x ∧ x ≤ 26 := by
  intro x hx
  simp only [convertCharsToInts, List.mem_map] at hx
  obtain ⟨ch, hch, rfl⟩ := hx
  have h := hs ch hch
  have ha : 'a'.toNat = 97 := by decide
  have hz : 'z'.toNat = 122 := by decide
  rw [ha, hz] at h
  rw [ha]
  omega

theorem convertIntsToChars_lowerCase (v : List Int) (hv : ∀ i ∈ v, 1 ≤ i ∧ i ≤ 26) :
    LowerCase (convertIntsToChars v) := by
  intro ch hch
  simp only [convertIntsToChars, List.mem_map] at hch
  obtain ⟨i, hi, rfl⟩ := hch
  have h := hv i hi
  have ha : 'a'.toNat = 97 := by decide
  have hz : 'z'.toNat = 122 := by decide
  have h2 : ((i + ((97 : Nat) - 1 : Int)) % 256).toNat < 256 := by omega
  rw [ha, hz, toNat_ofNat_small _ h2]
  omega

theorem convertIntsToChars_length (v : List Int) : (convertIntsToChars v).length = v.length := by
  simp [convertIntsToChars]

/-! ## `initKey_` is never written by a round -/

theorem bind_eq_ok {ε α β : Type} {x : Except ε α} {f : α → Except ε β} {b : β}
    (h : x.bind f = .ok b) : ∃ a, x = .ok a ∧ f a = .ok b := by
  cases x with
  | error e => cases h
  | ok a => exact ⟨a, rfl, h⟩

theorem swapCards_initKey (c c' : Cipher) (p1 p2 : Int) (h : swapCards c p1 p2 = .ok c') :
    c'.initKey_ = c.initKey_ := by
  simp only [swapCards, bind, pure, Except.pure] at h
  obtain ⟨_, _, h⟩ := bind_eq_ok h
  obtain ⟨_, _, h⟩ := bind_eq_ok h
  obtain ⟨_, _, h⟩ := bind_eq_ok h
  obtain ⟨_, _, h⟩ := bind_eq_ok h
  injection h with h
  subst h
  rfl

theorem tripleCut_initKey (c c' : Cipher) (lo hi : Int) (h : tripleCut c lo hi = .ok c') :
    c'.initKey_ = c.initKey_ := by
  simp only [tripleCut, bind, pure, Except.pure] at h
  obtain ⟨_, _, h⟩ := bind_eq_ok h
  obtain ⟨_, _, h⟩ := bind_eq_ok h
  injection h with h
  subst h
  rfl

theorem countCut_initKey (c c' : Cipher) (pos : Int) (h : countCut c pos = .ok c') :
    c'.initKey_ = c.initKey_ := by
  unfold countCut at h
  split at h
  · injection h with h
    subst h
    rfl
  · simp only [bind, pure, Except.pure] at h
    obtain ⟨_, _, h⟩ := bind_eq_ok h
    injection h with h
    subst h
    rfl

theorem roundDeck_initKey (c c' : Cipher) (h : roundDeck c = .ok c') :
    c'.initKey_ = c.initKey_ := by
  simp only [roundDeck, moveJokerA, moveJokerB, bind] at h
  obtain ⟨c1, h1, h⟩ := bind_eq_ok h
  obtain ⟨_, _, h1⟩ := bind_eq_ok h1
  obtain ⟨c2, h2, h⟩ := bind_eq_ok h
  obtain ⟨_, _, h2⟩ := bind_eq_ok h2
  obtain ⟨c2a, h2a, h2⟩ := bind_eq_ok h2
  obtain ⟨_, _, h⟩ := bind_eq_ok h
  obtain ⟨c3, h3, h⟩ := bind_eq_ok h
  obtain ⟨_, _, h⟩ := bind_eq_ok h
  rw [countCut_initKey _ _ _ h, tripleCut_initKey _ _ _ _ h3, swapCards_initKey _ _ _ _ h2,
    swapCards_initKey _ _ _ _ h2a, swapCards_initKey _ _ _ _ h1]

theorem roundBody_initKey (c c' : Cipher) (count : Nat) (h : roundBody c count = .ok c') :
    c'.initKey_ = c.initKey_ := by
  simp only [roundBody, bind, pure, Except.pure] at h
  obtain ⟨c1, h1, h⟩ := bind_eq_ok h
  obtain ⟨_, _, h⟩ := bind_eq_ok h
  obtain ⟨_, _, h⟩ := bind_eq_ok h
  injection h with h
  subst h
  have e := roundDeck_initKey _ _ h1
  exact e

theorem generateKeystreamLoop_initKey (fuel : Nat) (n : Int) (count : Nat) (c c' : Cipher)
    (h : generateKeystreamLoop fuel n count c = .ok c') : c'.initKey_ = c.initKey_ := by
  induction fuel generalizing count c with
  | zero =>
    by_cases hc : (count : Int) < n
    · simp [generateKeystreamLoop, hc] at h
    · rw [generateKeystreamLoop_done _ _ _ _ hc] at h
      injection h with h
      rw [h]
  | succ fuel ih =>
    by_cases hc : (count : Int) < n
    · rw [generateKeystreamLoop_succ _ _ _ _ hc] at h
      obtain ⟨c1, h1, h⟩ := bind_eq_ok h
      obtain ⟨k, _, h⟩ := bind_eq_ok h
      by_cases hk : k < 0
      · rw [if_pos hk] at h
        rw [ih _ _ h, roundBody_initKey _ _ _ h1]
      · rw [if_neg hk] at h
        rw [ih _ _ h, roundBody_initKey _ _ _ h1]
    · rw [generateKeystreamLoop_done _ _ _ _ hc] at h
      injection h with h
      rw [h]

theorem generateKeystream_initKey (fuel : Nat) (n : Int) (c : Cipher) (r : List Int × Cipher)
    (h : generateKeystream fuel n c = .ok r) : r.2.initKey_ = c.initKey_ := by
  simp only [generateKeystream, bind, pure, Except.pure] at h
  obtain ⟨ks, _, h⟩ := bind_eq_ok h
  obtain ⟨c1, h1, h⟩ := bind_eq_ok h
  injection h with h
  subst h
  have e := generateKeystreamLoop_initKey _ _ _ _ _ h1
  exact e

theorem encrypt_initKey (fuel : Nat) (P : List Char) (c : Cipher) (r : List Char × Cipher)
    (h : encrypt fuel P c = .ok r) : r.2.initKey_ = c.initKey_ := by
  simp only [encrypt, bind, pure, Except.pure] at h
  obtain ⟨r1, h1, h⟩ := bind_eq_ok h
  obtain ⟨_, _, h⟩ := bind_eq_ok h
  injection h with h
  subst h
  have e := generateKeystream_initKey _ _ _ _ h1
  exact e

theorem decrypt_initKey (fuel : Nat) (C : List Char) (c : Cipher) (r : List Char × Cipher)
    (h : decrypt fuel C c = .ok r) : r.2.initKey_ = c.initKey_ := by
  simp only [decrypt, bind, pure, Except.pure] at h
  obtain ⟨r1, h1, h⟩ := bind_eq_ok h
  obtain ⟨_, _, h⟩ := bind_eq_ok h
  injection h with h
  subst h
  have e := generateKeystream_initKey _ _ _ _ h1
  exact e

theorem encrypt_congr (fuel : Nat) (P : List Char) (c1 c2 : Cipher)
    (h : c1.initKey_ = c2.initKey_) : encrypt fuel P c1 = encrypt fuel P c2 := by
  have e := generateKeystream_congr fuel P.length { c1 with key_ := c1.initKey_ }
    { c2 with key_ := c2.initKey_ } h h
  simp only [encrypt, e]

theorem decrypt_congr (fuel : Nat) (C : List Char) (c1 c2 : Cipher)
    (h : c1.initKey_ = c2.initKey_) : decrypt fuel C c1 = decrypt fuel C c2 := by
  have e := generateKeystream_congr fuel C.length { c1 with key_ := c1.initKey_ }
    { c2 with key_ := c2.initKey_ } h h
  simp only [decrypt, e]

/-! ## The claims -/

theorem mem_zipWith_add (ps ks : List Int) (hp : ∀ p ∈ ps, 1 ≤ p ∧ p ≤ 26)
    (hk : ∀ k ∈ ks, 1 ≤ k ∧ k ≤ 26) :
    ∀ x ∈ List.zipWith (fun p k => p + k) ps ks, 2 ≤ x ∧ x ≤ 52 := by
  induction ps generalizing ks with
  | nil => simp
  | cons p ps ih =>
    cases ks with
    | nil => simp
    | cons k ks =>
      intro x hx
      simp only [List.zipWith_cons_cons, List.mem_cons] at hx
      have h1 := hp p (List.mem_cons_self _ _)
      have h2 := hk k (List.mem_cons_self _ _)
      rcases hx with hx | hx
      · omega
      · exact ih ks (fun q hq => hp q (List.mem_cons_of_mem _ hq))
          (fun q hq => hk q (List.mem_cons_of_mem _ hq)) x hx

theorem enc_rule_eq :
    (fun p k : Int => if p + k > RADIX then p + k - RADIX else p + k)
      = (fun p k : Int => if p + k ≤ 26 then p + k else p + k - 26) := by
  funext p k
  simp only [RADIX]
  split <;> split <;> omega

/-- C1 (round trip).  For a key `K` that is a permutation of 1..54 and a plaintext `P`
over a..z, if keystream generation for length `|P|` from `K` finishes within `fuel`
loop iterations, then `encrypt` on a cipher with `initKey_ = K` returns a ciphertext
`ct` (with any fuel at least that large, leaving `initKey_ = K`), and `decrypt` of `ct`
on any cipher with `initKey_ = K` returns exactly `P`. -/
theorem decrypt_encrypt_round_trip (fuel : Nat) (K : List Int) (P : List Char) (c : Cipher)
    (r : List Int × Cipher) (hK : ValidDeck K) (hP : LowerCase P) (hc : c.initKey_ = K)
    (hterm : generateKeystream fuel P.length { c with key_ := K } = .ok r) :
    ∃ ct, (∀ f1, fuel ≤ f1 → ∃ c1, encrypt f1 P c = .ok (ct, c1) ∧ c1.initKey_ = K) ∧
      (∀ f2 (d : Cipher), fuel ≤ f2 → d.initKey_ = K →
        ∃ d1, decrypt f2 ct d = .ok (P, d1)) := by
  subst hc
  obtain ⟨ks, c1⟩ := r
  obtain ⟨hlen, hrange, hks, _, hik⟩ := generateKeystream_valid _ _ _ _ _ hK hterm
  have hlen2 : ks.length = P.length := by exact_mod_cast hlen
  have hpr := convertCharsToInts_range P hP
  have her := zipWith_enc_range _ _ hpr hrange
  refine ⟨convertIntsToChars (List.zipWith
      (fun p k => if p + k > RADIX then p + k - RADIX else p + k)
      (convertCharsToInts P) ks), ?_, ?_⟩
  · intro f1 hf1
    have h1 := generateKeystream_mono _ f1 _ _ _ hf1 hterm
    exact ⟨c1, encrypt_eq f1 P c ks c1 h1 hks hlen2, hik⟩
  · intro f2 d hf2 hd
    have hctlen : (convertIntsToChars (List.zipWith
        (fun p k => if p + k > RADIX then p + k - RADIX else p + k)
        (convertCharsToInts P) ks)).length = P.length := by
      simp [convertIntsToChars_length, convertCharsToInts_length, hlen2]
    have h2 := generateKeystream_mono _ f2 _ _ _ hf2 hterm
    have hcg := generateKeystream_congr f2 P.length { d with key_ := d.initKey_ }
      { c with key_ := c.initKey_ } hd hd
    rw [h2, ← hctlen] at hcg
    have e := decrypt_eq f2 _ d ks c1 hcg hks (by rw [hctlen, hlen2])
    refine ⟨c1, ?_⟩
    rw [e, convertCharsToInts_convertIntsToChars _ her,
      zipWith_dec_enc _ _ hpr hrange (by simp [convertCharsToInts_length, hlen2]),
      convertIntsToChars_convertCharsToInts P hP]

theorem lowerCase_hi : LowerCase ['h', 'i'] := by
  intro ch hch
  simp only [List.mem_cons, List.mem_singleton, List.not_mem_nil, or_false] at hch
  rcases hch with rfl | rfl <;> decide

/-- Witness for C1: the key 1, 2, ..., 54 and the plaintext "hi". -/
theorem decrypt_encrypt_round_trip_witness :
    ValidDeck fullDeck ∧ LowerCase ['h', 'i'] ∧
      ∃ ct, (∀ f1, 2 ≤ f1 → ∃ c1, encrypt f1 ['h', 'i'] ⟨[], fullDeck, []⟩ = .ok (ct, c1)
          ∧ c1.initKey_ = fullDeck) ∧
        (∀ f2 (d : Cipher), 2 ≤ f2 → d.initKey_ = fullDeck →
          ∃ d1, decrypt f2 ct d = .ok (['h', 'i'], d1)) :=
  ⟨List.Perm.refl _, lowerCase_hi,
    decrypt_encrypt_round_trip 2 fullDeck ['h', 'i'] ⟨[], fullDeck, []⟩ _ (List.Perm.refl _)
      lowerCase_hi rfl rfl⟩

/-- C2 (permutation closure).  On a deck that is a permutation of 1..54, one full
iteration of the round body (both joker steps, triple cut, count cut, output and its
store into `keystream_[count]`) returns, and the deck it leaves is again a permutation
of 1..54 of length 54 (a rearrangement of the deck before), void round or not. -/
theorem round_preserves_permutation (c : Cipher) (count : Nat) (hv : ValidDeck c.key_)
    (hc : count < c.keystream_.length) :
    ∃ c1, roundBody c count = .ok c1 ∧ ValidDeck c1.key_ ∧ c1.key_.length = 54 ∧
      c1.key_.Perm c.key_ := by
  obtain ⟨k, out, e, v, _, _, _⟩ := roundBody_valid c count hv hc
  exact ⟨_, e, v, v.length_eq, v.trans hv.symm⟩

/-- Witness for C2: the deck 1, 2, ..., 54. -/
theorem round_preserves_permutation_witness :
    ValidDeck fullDeck ∧ 0 < [(0 : Int)].length ∧
      ∃ c1, roundBody ⟨fullDeck, fullDeck, [0]⟩ 0 = .ok c1 ∧ ValidDeck c1.key_ ∧
        c1.key_.length = 54 ∧ c1.key_.Perm fullDeck :=
  ⟨List.Perm.refl _, by decide,
    round_preserves_permutation ⟨fullDeck, fullDeck, [0]⟩ 0 (List.Perm.refl _) (by decide)⟩

/-- C3 (reproducibility).  Two cipher states with the same `initKey_`, whatever their
`key_` and `keystream_`, give the same result of `encrypt` and of `decrypt` (the same
string, the same final state, or the same failure); a call leaves `initKey_` as it
was, so a second call on the state left by the first returns the same again. -/
theorem encrypt_decrypt_reproducible (fuel : Nat) (text : List Char) (c1 c2 : Cipher)
    (h : c1.initKey_ = c2.initKey_) :
    encrypt fuel text c1 = encrypt fuel text c2 ∧
      decrypt fuel text c1 = decrypt fuel text c2 ∧
      (∀ r, encrypt fuel text c1 = .ok r →
        r.2.initKey_ = c1.initKey_ ∧ encrypt fuel text r.2 = .ok r) ∧
      (∀ r, decrypt fuel text c1 = .ok r →
        r.2.initKey_ = c1.initKey_ ∧ decrypt fuel text r.2 = .ok r) := by
  refine ⟨encrypt_congr _ _ _ _ h, decrypt_congr _ _ _ _ h, ?_, ?_⟩
  · intro r hr
    have hi := encrypt_initKey _ _ _ _ hr
    exact ⟨hi, by rw [encrypt_congr _ _ _ _ hi, hr]⟩
  · intro r hr
    have hi := decrypt_initKey _ _ _ _ hr
    exact ⟨hi, by rw [decrypt_congr _ _ _ _ hi, hr]⟩

/-- Witness for C3: two states sharing the key 1, 2, ..., 54 with different working
decks and stored keystreams. -/
theorem encrypt_decrypt_reproducible_witness :
    (⟨[], fullDeck, []⟩ : Cipher).initKey_ = (⟨[3, 1, 2], fullDeck, [7, 7, 7]⟩ : Cipher).initKey_
      ∧ encrypt 4 ['h', 'i'] ⟨[], fullDeck, []⟩
          = encrypt 4 ['h', 'i'] ⟨[3, 1, 2], fullDeck, [7, 7, 7]⟩
      ∧ decrypt 4 ['h', 'i'] ⟨[], fullDeck, []⟩
          = decrypt 4 ['h', 'i'] ⟨[3, 1, 2], fullDeck, [7, 7, 7]⟩ :=
  ⟨rfl, (encrypt_decrypt_reproducible 4 ['h', 'i'] ⟨[], fullDeck, []⟩
      ⟨[3, 1, 2], fullDeck, [7, 7, 7]⟩ rfl).1,
    (encrypt_decrypt_reproducible 4 ['h', 'i'] ⟨[], fullDeck, []⟩
      ⟨[3, 1, 2], fullDeck, [7, 7, 7]⟩ rfl).2.1⟩

/-- C4 (keystream shape).  On a deck that is a permutation of 1..54, whenever
`generateKeystream(n)` returns (within any fuel), the returned keystream has length
exactly `n` and each of its elements lies in 1..26. -/
theorem generateKeystream_shape (fuel : Nat) (n : Int) (c : Cipher) (ks : List Int)
    (c1 : Cipher) (hv : ValidDeck c.key_) (h : generateKeystream fuel n c = .ok (ks, c1)) :
    (ks.length : Int) = n ∧ ∀ x ∈ ks, 1 ≤ x ∧ x ≤ 26 := by
  obtain ⟨hlen, hrange, _, _, _⟩ := generateKeystream_valid _ _ _ _ _ hv h
  exact ⟨hlen, hrange⟩

/-- Witness for C4: three keystream values from the deck 1, 2, ..., 54. -/
theorem generateKeystream_shape_witness :
    ValidDeck fullDeck ∧ ∃ ks c1, generateKeystream 3 3 ⟨fullDeck, [], []⟩ = .ok (ks, c1) ∧
      (ks.length : Int) = 3 ∧ ∀ x ∈ ks, 1 ≤ x ∧ x ≤ 26 :=
  ⟨List.Perm.refl _, _, _, rfl,
    generateKeystream_shape 3 3 ⟨fullDeck, [], []⟩ _ _ (List.Perm.refl _) rfl⟩

/-- C5 (a round never errors on a valid deck).  On a deck that is a permutation of
1..54 every call of one loop iteration returns normally: no `runtime_error` from
`findJokerA`, `findJokerB`, `findJokers` or `findOutput`, and no access outside the
deck in `swapCards`, `tripleCut`, `countCut`, the read of the bottom card or
`findOutput` (such an access would be the result `outOfRange`). -/
theorem round_never_errors (c : Cipher) (hv : ValidDeck c.key_) :
    ∃ (posA : Int) (c1 : Cipher) (posB : Int) (c2 c3 : Cipher) (jokers : Int × Int)
      (c4 : Cipher) (pos : Int) (c5 : Cipher) (out : Int),
      findJokerA c = .ok posA ∧ swapCards c posA (posA + 1) = .ok c1 ∧
      findJokerB c1 = .ok posB ∧ swapCards c1 posB (posB + 1) = .ok c2 ∧
      swapCards c2 (posB + 1) (posB + 2) = .ok c3 ∧
      findJokers c3 = .ok jokers ∧ tripleCut c3 jokers.1 jokers.2 = .ok c4 ∧
      readAt c4.key_ (NCARDS - 1) = .ok pos ∧ countCut c4 pos = .ok c5 ∧
      findOutput c5 = .ok out ∧ roundDeck c = .ok c5 := by
  obtain ⟨k, e, v⟩ := roundDeck_valid c hv
  obtain ⟨out, eo, _⟩ := findOutput_valid { c with key_ := k } v
  have h := e
  simp only [roundDeck, moveJokerA, moveJokerB, bind] at h
  obtain ⟨c1, h1, h⟩ := bind_eq_ok h
  obtain ⟨posA, hA, h1⟩ := bind_eq_ok h1
  obtain ⟨c3, h3, h⟩ := bind_eq_ok h
  obtain ⟨posB, hB, h3⟩ := bind_eq_ok h3
  obtain ⟨c2, h2, h3⟩ := bind_eq_ok h3
  obtain ⟨jokers, hj, h⟩ := bind_eq_ok h
  obtain ⟨c4, h4, h⟩ := bind_eq_ok h
  obtain ⟨pos, hp, h⟩ := bind_eq_ok h
  exact ⟨posA, c1, posB, c2, c3, jokers, c4, pos, _, out, hA, h1, hB, h2, h3, hj, h4, hp, h,
    eo, e⟩

/-- Witness for C5: the deck 1, 2, ..., 54. -/
theorem round_never_errors_witness :
    ValidDeck fullDeck ∧ ∃ c5, roundDeck ⟨fullDeck, [], []⟩ = .ok c5 ∧
      ∃ out, findOutput c5 = .ok out := by
  obtain ⟨_, _, _, _, _, _, _, _, c5, out, _, _, _, _, _, _, _, _, _, ho, hr⟩ :=
    round_never_errors ⟨fullDeck, [], []⟩ (List.Perm.refl _)
  exact ⟨List.Perm.refl _, c5, hr, out, ho⟩

theorem fillFrom_new : fillFrom Cipher.new.key_ 1 = fullDeck := by decide

theorem ValidDeck.count_eq_one {d : List Int} (h : ValidDeck d) (v : Int) (h1 : 1 ≤ v)
    (h2 : v ≤ 54) : d.count v = 1 :=
  List.count_eq_one_of_mem h.nodup ((h.mem_iff v).2 ⟨h1, h2⟩)

/-- C6 (key validity).  Whatever rearrangement the shuffle makes of the filled vector,
`generateKey` on a freshly constructed cipher returns a sequence of length 54 holding
each of 1..54 exactly once (and nothing else), and stores that sequence as both `key_`
and `initKey_`. -/
theorem generateKey_valid (random_shuffle : List Int → List Int)
    (hsh : ∀ l, (random_shuffle l).Perm l) :
    (generateKey random_shuffle Cipher.new).1.length = 54 ∧
      (∀ v : Int, 1 ≤ v → v ≤ 54 → (generateKey random_shuffle Cipher.new).1.count v = 1) ∧
      (∀ v ∈ (generateKey random_shuffle Cipher.new).1, 1 ≤ v ∧ v ≤ 54) ∧
      ValidDeck (generateKey random_shuffle Cipher.new).1 ∧
      (generateKey random_shuffle Cipher.new).2.key_ = (generateKey random_shuffle Cipher.new).1 ∧
      (generateKey random_shuffle Cipher.new).2.initKey_
        = (generateKey random_shuffle Cipher.new).1 := by
  have hv : ValidDeck (generateKey random_shuffle Cipher.new).1 := by
    have := hsh (fillFrom Cipher.new.key_ 1)
    rw [fillFrom_new] at this
    simpa only [generateKey, fillFrom_new] using this
  exact ⟨hv.length_eq, hv.count_eq_one, fun v hvm => (hv.mem_iff v).1 hvm, hv, rfl, rfl⟩

/-- Witness for C6: the shuffle that reverses the vector. -/
theorem generateKey_valid_witness :
    (∀ l : List Int, (List.reverse l).Perm l) ∧
      (generateKey List.reverse Cipher.new).1.length = 54 ∧
      ValidDeck (generateKey List.reverse Cipher.new).1 ∧
      (generateKey List.reverse Cipher.new).2.key_ = (generateKey List.reverse Cipher.new).1 ∧
      (generateKey List.reverse Cipher.new).2.initKey_
        = (generateKey List.reverse Cipher.new).1 :=
  ⟨List.reverse_perm,
    (generateKey_valid List.reverse List.reverse_perm).1,
    (generateKey_valid List.reverse List.reverse_perm).2.2.2.1,
    (generateKey_valid List.reverse List.reverse_perm).2.2.2.2.1,
    (generateKey_valid List.reverse List.reverse_perm).2.2.2.2.2⟩

/-- C7 (encrypt combination rule).  For a valid key `K` and a plaintext `P` over a..z
whose keystream `ks` is produced, `encrypt` returns a ciphertext of the length of `P`
whose letter values are, position by position, `p + k` when that sum is at most 26 and
`p + k - 26` otherwise; every sum `p + k` is at most 52, every ciphertext letter value
lies in 1..26, and the ciphertext is a string over a..z. -/
theorem encrypt_combination_rule (fuel : Nat) (K : List Int) (P : List Char) (c : Cipher)
    (ks : List Int) (c1 : Cipher) (hK : ValidDeck K) (hP : LowerCase P)
    (hc : c.initKey_ = K)
    (hterm : generateKeystream fuel P.length { c with key_ := K } = .ok (ks, c1)) :
    ∃ ct, encrypt fuel P c = .ok (ct, c1) ∧ ct.length = P.length ∧
      convertCharsToInts ct
        = List.zipWith (fun p k => if p + k ≤ 26 then p + k else p + k - 26)
            (convertCharsToInts P) ks ∧
      (∀ x ∈ List.zipWith (fun p k => p + k) (convertCharsToInts P) ks, x ≤ 52) ∧
      (∀ x ∈ convertCharsToInts ct, 1 ≤ x ∧ x ≤ 26) ∧ LowerCase ct := by
  subst hc
  obtain ⟨hlen, hrange, hks, _, _⟩ := generateKeystream_valid _ _ _ _ _ hK hterm
  have hlen2 : ks.length = P.length := by exact_mod_cast hlen
  have hpr := convertCharsToInts_range P hP
  have her := zipWith_enc_range _ _ hpr hrange
  have hinv := convertCharsToInts_convertIntsToChars _ her
  refine ⟨_, encrypt_eq fuel P c ks c1 hterm hks hlen2, ?_, ?_, ?_, ?_, ?_⟩
  · simp [convertIntsToChars_length, convertCharsToInts_length, hlen2]
  · rw [hinv, enc_rule_eq]
  · exact fun x hx => (mem_zipWith_add _ _ hpr hrange x hx).2
  · rw [hinv]
    exact her
  · exact convertIntsToChars_lowerCase _ her

/-- Witness for C7: the key 1, 2, ..., 54 and the plaintext "hi". -/
theorem encrypt_combination_rule_witness :
    ValidDeck fullDeck ∧ LowerCase ['h', 'i'] ∧
      ∃ ks ct c1, generateKeystream 2 2 ⟨fullDeck, fullDeck, []⟩ = .ok (ks, c1) ∧
        encrypt 2 ['h', 'i'] ⟨[], fullDeck, []⟩ = .ok (ct, c1) ∧ ct.length = 2 ∧
        convertCharsToInts ct
          = List.zipWith (fun p k => if p + k ≤ 26 then p + k else p + k - 26)
              (convertCharsToInts ['h', 'i']) ks := by
  obtain ⟨ct, h1, h2, h3, _⟩ := encrypt_combination_rule 2 fullDeck ['h', 'i']
    ⟨[], fullDeck, []⟩ _ _ (List.Perm.refl _) lowerCase_hi rfl rfl
  exact ⟨List.Perm.refl _, lowerCase_hi, _, ct, _, rfl, h1, h2, h3⟩

/-- C8 (letter codec).  `convertCharsToInts` works position by position, sending the
letters a, b, ..., z to 1, 2, ..., 26, and `convertIntsToChars` is its inverse: on
strings over a..z one way, and on sequences of integers in 1..26 the other way. -/
theorem letterCodec_inverse :
    (∀ (s : List Char) (i : Nat),
        (convertCharsToInts s)[i]? = s[i]?.map (fun ch => (ch.toNat : Int) - 'a'.toNat + 1)) ∧
      convertCharsToInts "abcdefghijklmnopqrstuvwxyz".toList
        = [1, 2, 3, 4, 5, 6, 7, 8, 9, 10, 11, 12, 13, 14, 15, 16, 17, 18, 19, 20, 21, 22, 23,
            24, 25, 26] ∧
      (∀ s : List Char, LowerCase s → convertIntsToChars (convertCharsToInts s) = s) ∧
      (∀ v : List Int, (∀ i ∈ v, 1 ≤ i ∧ i ≤ 26) →
        convertCharsToInts (convertIntsToChars v) = v) := by
  refine ⟨?_, by decide, convertIntsToChars_convertCharsToInts,
    convertCharsToInts_convertIntsToChars⟩
  intro s i
  simp only [convertCharsToInts, List.getElem?_map]
  congr 1
  funext ch
  omega

/-- Witness for C8: the string "hi" and the sequence 8, 9. -/
theorem letterCodec_inverse_witness :
    LowerCase ['h', 'i'] ∧ convertIntsToChars (convertCharsToInts ['h', 'i']) = ['h', 'i'] ∧
      (∀ i ∈ [(8 : Int), 9], 1 ≤ i ∧ i ≤ 26) ∧
      convertCharsToInts (convertIntsToChars [8, 9]) = [8, 9] :=
  ⟨lowerCase_hi, letterCodec_inverse.2.2.1 ['h', 'i'] lowerCase_hi, by decide,
    letterCodec_inverse.2.2.2 [8, 9] (by decide)⟩

theorem jokerATopDeck_valid : ValidDeck jokerATopDeck := by
  unfold ValidDeck
  decide

theorem jokerBTopDeck_valid : ValidDeck jokerBTopDeck := by
  unfold ValidDeck
  decide

/-- C9 (step 1 should move joker A down one position): the code at a failing input.
On the valid deck 53, 1, 2, ..., 52, 54 joker A is at position 1; `findJokerA` returns
the card value 53 instead of the position 1, so step 1 exchanges positions 53 and 54
and joker A is still at position 1 afterwards, where the claim puts it at position 2. -/
theorem moveJokerA_jokerATop :
    ValidDeck jokerATopDeck ∧ jokerATopDeck[0]? = some 53 ∧
      findJokerA ⟨jokerATopDeck, [], []⟩ = .ok 53 ∧
      moveJokerA ⟨jokerATopDeck, [], []⟩
        = .ok ⟨53 :: (List.map (fun (i : Nat) => (i : Int) + 1) (List.range 51) ++ [54, 52]),
            [], []⟩ ∧
      (53 :: (List.map (fun (i : Nat) => (i : Int) + 1) (List.range 51) ++ [54, 52]))[1]?
        = some 1 :=
  ⟨jokerATopDeck_valid, rfl, rfl, rfl, rfl⟩

/-- C10 (step 2 should move joker B down two positions): the code at a failing input.
On the valid deck 54, 1, 2, ..., 53 joker B is at position 1; `findJokerB` returns the
card value 54 instead of the position 1, so step 2 exchanges positions 54 and 1 and
then positions 1 and 2, which leaves joker B at position 54, where the claim puts it
at position 3. -/
theorem moveJokerB_jokerBTop :
    ValidDeck jokerBTopDeck ∧ jokerBTopDeck[0]? = some 54 ∧
      findJokerB ⟨jokerBTopDeck, [], []⟩ = .ok 54 ∧
      moveJokerB ⟨jokerBTopDeck, [], []⟩
        = .ok ⟨1 :: 53 :: (List.map (fun (i : Nat) => (i : Int) + 2) (List.range 51) ++ [54]),
            [], []⟩ ∧
      (1 :: 53 :: (List.map (fun (i : Nat) => (i : Int) + 2) (List.range 51) ++ [54]))[2]?
        = some 2 ∧
      (1 :: 53 :: (List.map (fun (i : Nat) => (i : Int) + 2) (List.range 51) ++ [54]))[53]?
        = some 54 :=
  ⟨jokerBTopDeck_valid, rfl, rfl, rfl, rfl, rfl⟩

/-! ## Claims on the deck primitives -/

/-- C11 (locate should return a position): the code at failing inputs.  On the valid
deck 53, 1, 2, ..., 52, 54 the value 53 is at position 1, yet `findJokerA` returns 53,
a position that holds the card 52; on the valid deck 54, 1, 2, ..., 53 the value 54 is
at position 1, yet `findJokerB` returns 54, a position that holds the card 53.  Both
return `*it`, the value found, not where it was found. -/
theorem findJoker_returns_value :
    ValidDeck jokerATopDeck ∧ jokerATopDeck[0]? = some 53 ∧
      findJokerA ⟨jokerATopDeck, [], []⟩ = .ok 53 ∧ jokerATopDeck[53 - 1]? = some 52 ∧
      ValidDeck jokerBTopDeck ∧ jokerBTopDeck[0]? = some 54 ∧
      findJokerB ⟨jokerBTopDeck, [], []⟩ = .ok 54 ∧ jokerBTopDeck[54 - 1]? = some 53 :=
  ⟨jokerATopDeck_valid, rfl, rfl, rfl, jokerBTopDeck_valid, rfl, rfl, rfl⟩

/-- C14 (count cut skipped for a joker counter).  For every deck and every count above
52, `countCut` returns with the state unchanged: nothing is rotated and the count is
not brought down to 52. -/
theorem countCut_joker_skips (c : Cipher) (pos : Int) (h : 52 < pos) :
    countCut c pos = .ok c := by
  simp [countCut, h]

/-- Witness for C14: on the deck 54, 1, 2, ..., 53 (bottom card 53) the round reads the
count 53 and `countCut 53` leaves the deck as it is, whereas a cut of 52 cards would
not. -/
theorem countCut_joker_skips_witness :
    (52 : Int) < 53 ∧ readAt jokerBTopDeck (NCARDS - 1) = .ok 53 ∧
      countCut ⟨jokerBTopDeck, [], []⟩ 53 = .ok ⟨jokerBTopDeck, [], []⟩ ∧
      countCut ⟨jokerBTopDeck, [], []⟩ 52
        = .ok ⟨52 :: 54 :: (List.map (fun (i : Nat) => (i : Int) + 1) (List.range 51) ++ [53]),
            [], []⟩ :=
  ⟨by decide, rfl, countCut_joker_skips ⟨jokerBTopDeck, [], []⟩ 53 (by decide), rfl⟩

theorem wrap_index (p : Int) (h : 1 ≤ p ∧ p ≤ 108) :
    ∃ i : Nat, (if p > NCARDS then p - NCARDS else p) - 1 = (i : Int) ∧ i < 54 ∧
      ((if p > 54 then p - 54 else p) - 1).toNat = i := by
  refine ⟨((if p > 54 then p - 54 else p) - 1).toNat, ?_, ?_, rfl⟩
  · simp only [NCARDS]
    split <;> omega
  · split <;> omega

/-- C15 (swap with single wraparound).  On a deck of 54 cards and for positions in
1..108, `swapCards` returns, and the new deck has at each of the two positions, taken
after subtracting 54 once from an argument above 54, the card that was at the other one,
and every other position as before; `swapCards(54, 55)` is the same as
`swapCards(54, 1)`. -/
theorem swapCards_single_wrap (c : Cipher) (p1 p2 : Int) (hlen : c.key_.length = 54)
    (h1 : 1 ≤ p1 ∧ p1 ≤ 108) (h2 : 1 ≤ p2 ∧ p2 ≤ 108) :
    ∃ k, swapCards c p1 p2 = .ok { c with key_ := k } ∧ k.length = 54 ∧
      k[((if p1 > 54 then p1 - 54 else p1) - 1).toNat]?
        = c.key_[((if p2 > 54 then p2 - 54 else p2) - 1).toNat]? ∧
      k[((if p2 > 54 then p2 - 54 else p2) - 1).toNat]?
        = c.key_[((if p1 > 54 then p1 - 54 else p1) - 1).toNat]? ∧
      (∀ i : Nat, i ≠ ((if p1 > 54 then p1 - 54 else p1) - 1).toNat →
        i ≠ ((if p2 > 54 then p2 - 54 else p2) - 1).toNat → k[i]? = c.key_[i]?) ∧
      swapCards c 54 55 = swapCards c 54 1 := by
  obtain ⟨i, ei, hi, ti⟩ := wrap_index p1 h1
  obtain ⟨j, ej, hj, tj⟩ := wrap_index p2 h2
  rw [ti, tj]
  have hi2 : i < c.key_.length := by omega
  have hj2 : j < c.key_.length := by omega
  refine ⟨(c.key_.set j c.key_[i]).set i c.key_[j], swapCards_eq c p1 p2 i j hi2 hj2 ei ej,
    by simp [hlen], ?_, ?_, ?_, rfl⟩
  · rw [List.getElem?_set_self (by simpa using hi2), List.getElem?_eq_getElem hj2]
  · by_cases hij : i = j
    · subst hij
      rw [List.getElem?_set_self (by simpa using hi2), List.getElem?_eq_getElem hi2]
    · rw [List.getElem?_set_ne hij, List.getElem?_set_self hj2, List.getElem?_eq_getElem hi2]
  · intro n hni hnj
    rw [List.getElem?_set_ne (Ne.symm hni), List.getElem?_set_ne (Ne.symm hnj)]

/-- Witness for C15: positions 54 and 55 on the deck 1, 2, ..., 54. -/
theorem swapCards_single_wrap_witness :
    fullDeck.length = 54 ∧ ((1 : Int) ≤ 54 ∧ (54 : Int) ≤ 108) ∧
      ((1 : Int) ≤ 55 ∧ (55 : Int) ≤ 108) ∧
      swapCards ⟨fullDeck, [], []⟩ 54 55
        = .ok ⟨54 :: (List.map (fun (i : Nat) => (i : Int) + 2) (List.range 52) ++ [1]), [], []⟩ ∧
      ∃ k, swapCards ⟨fullDeck, [], []⟩ 54 55 = .ok ⟨k, [], []⟩ ∧ k[53]? = fullDeck[0]? ∧
        k[0]? = fullDeck[53]? ∧
        swapCards ⟨fullDeck, [], []⟩ 54 55 = swapCards ⟨fullDeck, [], []⟩ 54 1 := by
  obtain ⟨k, h1, _, h3, h4, _, h6⟩ := swapCards_single_wrap ⟨fullDeck, [], []⟩ 54 55
    fullDeck_length (by decide) (by decide)
  exact ⟨fullDeck_length, by decide, by decide, rfl, k, h1, h3, h4, h6⟩

theorem findJokerA_error_iff (c : Cipher) :
    (∃ what, findJokerA c = .error (.runtime_error what)) ↔ (53 : Int) ∉ c.key_ := by
  by_cases h : (53 : Int) ∈ c.key_
  · simp [findJokerA_of_mem c h, h]
  · have e : List.indexOf (53 : Int) c.key_ = c.key_.length := List.indexOf_eq_length.2 h
    simp [findJokerA, e, h]

theorem findJokerB_error_iff (c : Cipher) :
    (∃ what, findJokerB c = .error (.runtime_error what)) ↔ (54 : Int) ∉ c.key_ := by
  by_cases h : (54 : Int) ∈ c.key_
  · simp [findJokerB_of_mem c h, h]
  · have e : List.indexOf (54 : Int) c.key_ = c.key_.length := List.indexOf_eq_length.2 h
    simp [findJokerB, e, h]

theorem findJokersLoop_numFound (l : List Int) (idx : Int) (out : Int × Int) (n : Int) :
    (findJokersLoop l idx out n).2 = n + (l.countP (fun x => decide (52 < x)) : Nat) := by
  induction l generalizing idx out n with
  | nil => simp [findJokersLoop]
  | cons a t ih =>
    by_cases ha : a > 52
    · have ha2 : (52 : Int) < a := ha
      by_cases hn : n = 0
      · rw [findJokersLoop, if_pos ha, if_pos hn, ih, List.countP_cons_of_pos _ _ (by simpa using ha2)]
        push_cast
        ring
      · rw [findJokersLoop, if_pos ha, if_neg hn, ih, List.countP_cons_of_pos _ _ (by simpa using ha2)]
        push_cast
        ring
    · have ha2 : ¬ (52 : Int) < a := ha
      rw [findJokersLoop, if_neg ha, ih, List.countP_cons_of_neg _ _ (by simpa using ha2)]

theorem findJokers_error_iff (c : Cipher) :
    (∃ what, findJokers c = .error (.runtime_error what))
      ↔ c.key_.countP (fun x => decide (52 < x)) < 2 := by
  have e := findJokersLoop_numFound c.key_ 0 (0, 0) 0
  simp only [findJokers]
  constructor
  · rintro ⟨what, hw⟩
    split at hw
    · omega
    · cases hw
  · intro hlt
    have : (findJokersLoop c.key_ 0 (0, 0) 0).2 < 2 := by omega
    exact ⟨_, by rw [if_pos this]⟩

/-- C17 (corrupt-deck detection).  On every deck, valid or not, `findJokerA` raises its
`runtime_error` exactly when 53 does not occur in the deck, `findJokerB` exactly when 54
does not occur, and `findJokers` exactly when fewer than two entries exceed 52.  The
three are `const` members: they return a value and no new state, so the deck stays as
it was. -/
theorem locate_fails_iff_missing (c : Cipher) :
    ((∃ what, findJokerA c = .error (.runtime_error what)) ↔ (53 : Int) ∉ c.key_) ∧
      ((∃ what, findJokerB c = .error (.runtime_error what)) ↔ (54 : Int) ∉ c.key_) ∧
      ((∃ what, findJokers c = .error (.runtime_error what))
        ↔ c.key_.countP (fun x => decide (52 < x)) < 2) ∧
      ((∃ e, findJokerA c = .error e) ↔ (53 : Int) ∉ c.key_) ∧
      ((∃ e, findJokerB c = .error e) ↔ (54 : Int) ∉ c.key_) ∧
      ((∃ e, findJokers c = .error e) ↔ c.key_.countP (fun x => decide (52 < x)) < 2) := by
  refine ⟨findJokerA_error_iff c, findJokerB_error_iff c, findJokers_error_iff c, ?_, ?_, ?_⟩
  · constructor
    · rintro ⟨e, he⟩ hmem
      rw [findJokerA_of_mem c hmem] at he
      cases he
    · intro h
      obtain ⟨w, hw⟩ := (findJokerA_error_iff c).2 h
      exact ⟨_, hw⟩
  · constructor
    · rintro ⟨e, he⟩ hmem
      rw [findJokerB_of_mem c hmem] at he
      cases he
    · intro h
      obtain ⟨w, hw⟩ := (findJokerB_error_iff c).2 h
      exact ⟨_, hw⟩
  · constructor
    · rintro ⟨e, he⟩
      have e2 := findJokersLoop_numFound c.key_ 0 (0, 0) 0
      simp only [findJokers] at he
      split at he
      · omega
      · cases he
    · intro h
      obtain ⟨w, hw⟩ := (findJokers_error_iff c).2 h
      exact ⟨_, hw⟩

/-! ## The two cuts, exactly -/

theorem tripleCut_eq_with (c : Cipher) (lo hi : Int) :
    tripleCut c lo hi
      = (tripleCutWith NCARDS c.key_ lo hi).map (fun k => { c with key_ := k }) := by
  simp only [tripleCut, tripleCutWith, bind, pure, Except.pure, map_bind_except]
  congr 1

theorem rotate_zero_full (key : List Int) (hi : Nat) (h : hi ≤ key.length) :
    stdRotate key 0 hi key.length = .ok (key.drop hi ++ key.take hi) := by
  have e := stdRotate_ok key 0 hi key.length (Nat.zero_le _) h (le_refl _)
  simp only [Nat.cast_zero] at e
  rw [e]
  simp

/-- The triple cut on a deck of any size `n`, with `ncards = n`: the slices above the
first marker and below the second one change places. -/
theorem tripleCutWith_eq (key : List Int) (lo hi : Nat) (h1 : 1 ≤ lo) (h2 : lo ≤ hi)
    (h3 : hi ≤ key.length) :
    tripleCutWith key.length key lo hi
      = .ok (key.drop hi ++ (key.drop (lo - 1)).take (hi - (lo - 1)) ++ key.take (lo - 1)) := by
  have hk1 : (key.drop hi ++ key.take hi).length = key.length := by
    simp only [List.length_append, List.length_drop, List.length_take]
    omega
  have c1 : ((key.length : Int) - (hi : Int)) = ((key.length - hi : Nat) : Int) := by omega
  have c2 : ((key.length - hi : Nat) : Int) + ((lo : Int) - 1)
      = ((key.length - hi + (lo - 1) : Nat) : Int) := by omega
  have e2 := stdRotate_ok (key.drop hi ++ key.take hi) (key.length - hi)
    (key.length - hi + (lo - 1)) (key.drop hi ++ key.take hi).length (by omega)
    (by rw [hk1]; omega) (le_refl _)
  simp only [tripleCutWith, rotate_zero_full key hi h3, bind, Except.bind, c1, c2, e2]
  congr 1
  have lA : (key.drop hi).length = key.length - hi := by simp
  have t1 : (key.drop hi ++ key.take hi).take (key.length - hi) = key.drop hi := by
    rw [List.take_append_of_le_length (by omega), List.take_of_length_le (by omega)]
  have d1 : (key.drop hi ++ key.take hi).drop (key.length - hi) = key.take hi := by
    rw [List.drop_append_of_le_length (by omega), List.drop_of_length_le (by omega)]
    simp
  have d2 : (key.drop hi ++ key.take hi).drop (key.length - hi + (lo - 1))
      = (key.take hi).drop (lo - 1) := by
    rw [← List.drop_drop, d1]
  have d3 : (key.drop hi ++ key.take hi).drop (key.drop hi ++ key.take hi).length = [] :=
    List.drop_of_length_le (le_refl _)
  have t2 : ((key.take hi).drop (lo - 1)).take
      ((key.drop hi ++ key.take hi).length - (key.length - hi + (lo - 1)))
      = (key.drop (lo - 1)).take (hi - (lo - 1)) := by
    rw [hk1, List.drop_take, List.take_take]
    congr 1
    omega
  have t3 : (key.take hi).take (key.length - hi + (lo - 1) - (key.length - hi))
      = key.take (lo - 1) := by
    rw [List.take_take]
    congr 1
    omega
  rw [t1, d2, d3, t2, d1, t3, List.append_nil]

/-- C12 (triple cut).  On a deck of 54 cards and for 1 <= posLow < posHigh <= 54,
`tripleCut(posLow, posHigh)` leaves the deck equal to C ++ B ++ A, where A is positions
1..posLow-1, B is positions posLow..posHigh and C is positions posHigh+1..54 of the deck
before.  At the reduced size 6 (deck size constant 6) the deck 1, 2, 3, 4, 5, 6 with
markers at 2 and 5 becomes 6, 2, 3, 4, 5, 1. -/
theorem tripleCut_slices (c : Cipher) (posLow posHigh : Nat) (hlen : c.key_.length = 54)
    (h1 : 1 ≤ posLow) (h2 : posLow < posHigh) (h3 : posHigh ≤ 54) :
    tripleCut c posLow posHigh
        = .ok { c with key_ := c.key_.drop posHigh
            ++ (c.key_.drop (posLow - 1)).take (posHigh - (posLow - 1))
            ++ c.key_.take (posLow - 1) } ∧
      tripleCutWith 6 [1, 2, 3, 4, 5, 6] 2 5 = .ok [6, 2, 3, 4, 5, 1] := by
  constructor
  · have e := tripleCutWith_eq c.key_ posLow posHigh h1 (by omega) (by omega)
    rw [hlen] at e
    rw [tripleCut_eq_with]
    have e2 : NCARDS = ((54 : Nat) : Int) := rfl
    rw [e2, e]
    rfl
  · rfl

/-- Witness for C12: markers at positions 2 and 53 of the deck 1, 2, ..., 54. -/
theorem tripleCut_slices_witness :
    fullDeck.length = 54 ∧ 1 ≤ 2 ∧ 2 < 53 ∧ 53 ≤ 54 ∧
      tripleCut ⟨fullDeck, [], []⟩ (2 : Nat) (53 : Nat)
        = .ok ⟨54 :: (List.map (fun (i : Nat) => (i : Int) + 2) (List.range 52) ++ [1]),
            [], []⟩ :=
  ⟨fullDeck_length, by decide, by decide, by decide,
    (tripleCut_slices ⟨fullDeck, [], []⟩ 2 53 fullDeck_length (by decide) (by decide)
      (by decide)).1.trans rfl⟩

/-- The count cut on a deck of any size: the top `count` cards go just above the
bottom card, which stays. -/
theorem countCut_eq (c : Cipher) (count : Nat) (h52 : count ≤ 52)
    (hlen : count + 1 ≤ c.key_.length) :
    countCut c count
      = .ok { c with key_ := (c.key_.drop count).take (c.key_.length - 1 - count)
          ++ c.key_.take count ++ c.key_.drop (c.key_.length - 1) } := by
  have hn : ¬ (count : Int) > 52 := by omega
  have c1 : (c.key_.length : Int) - 1 = ((c.key_.length - 1 : Nat) : Int) := by omega
  have e := stdRotate_ok c.key_ 0 count (c.key_.length - 1) (Nat.zero_le _) (by omega)
    (by omega)
  simp only [Nat.cast_zero] at e
  simp only [countCut, hn, if_false, c1, e, bind, Except.bind, pure, Except.pure]
  simp

/-- C13 (count cut), as the code has it.  On a deck of 54 cards and for
1 <= count <= 52, `countCut(count)` leaves the deck equal to the old positions
count+1..53, then the old positions 1..count, then the old position 54.  On the
reduced deck 3, 5, 1, 2, 4, 6 the same rule gives `countCut(3)` = 2, 4, 3, 5, 1, 6. -/
theorem countCut_slices (c : Cipher) (count : Nat) (hlen : c.key_.length = 54)
    (h1 : 1 ≤ count) (h2 : count ≤ 52) :
    countCut c count
        = .ok { c with key_ := (c.key_.drop count).take (53 - count) ++ c.key_.take count
            ++ c.key_.drop 53 } ∧
      countCut ⟨[3, 5, 1, 2, 4, 6], [], []⟩ 3 = .ok ⟨[2, 4, 3, 5, 1, 6], [], []⟩ := by
  constructor
  · have e := countCut_eq c count h2 (by omega)
    rw [hlen] at e
    exact e
  · rfl

/-- Witness for C13: a cut of 3 cards on the deck 1, 2, ..., 54. -/
theorem countCut_slices_witness :
    fullDeck.length = 54 ∧ 1 ≤ 3 ∧ 3 ≤ 52 ∧
      countCut ⟨fullDeck, [], []⟩ (3 : Nat)
        = .ok ⟨List.map (fun (i : Nat) => (i : Int) + 4) (List.range 50) ++ [1, 2, 3, 54],
            [], []⟩ :=
  ⟨fullDeck_length, by decide, by decide,
    (countCut_slices ⟨fullDeck, [], []⟩ 3 fullDeck_length (by decide) (by decide)).1.trans rfl⟩

/-- C13, the reduced example as the spec words it: `countCut(3)` on the deck
3, 5, 1, 2, 4, 6 does not give 2, 4, 6, 3, 5, 1 (the bottom card 6 stays at the bottom). -/
theorem countCut_reduced_example_differs :
    countCut ⟨[3, 5, 1, 2, 4, 6], [], []⟩ 3 ≠ .ok ⟨[2, 4, 6, 3, 5, 1], [], []⟩ := by
  have e : countCut ⟨[3, 5, 1, 2, 4, 6], [], []⟩ 3 = .ok ⟨[2, 4, 3, 5, 1, 6], [], []⟩ := rfl
  rw [e]
  intro h
  injection h with h
  revert h
  decide

/-! ## The pair of jokers, exactly -/

theorem getElem?_marker (pre rest : List Int) (x : Int) (i : Nat) (v : Int)
    (h : (pre ++ x :: rest)[i]? = some v) :
    (i < pre.length ∧ v ∈ pre) ∨ (i = pre.length ∧ v = x) ∨
      (pre.length < i ∧ rest[i - pre.length - 1]? = some v) := by
  rcases Nat.lt_trichotomy i pre.length with hlt | heq | hgt
  · rw [List.getElem?_append_left hlt] at h
    exact Or.inl ⟨hlt, List.getElem?_mem h⟩
  · subst heq
    rw [List.getElem?_append_right (le_refl _)] at h
    simp only [Nat.sub_self, List.getElem?_cons_zero, Option.some.injEq] at h
    exact Or.inr (Or.inl ⟨rfl, h.symm⟩)
  · rw [List.getElem?_append_right (by omega)] at h
    have e : i - pre.length = (i - pre.length - 1) + 1 := by omega
    rw [e, List.getElem?_cons_succ] at h
    exact Or.inr (Or.inr ⟨hgt, h⟩)

theorem getElem?_two_markers (pre mid post : List Int) (x y : Int) (hx : 52 < x) (hy : 52 < y)
    (hpre : ∀ z ∈ pre, z ≤ 52) (hmid : ∀ z ∈ mid, z ≤ 52) (hpost : ∀ z ∈ post, z ≤ 52)
    (i : Nat) (v : Int) (h : (pre ++ x :: (mid ++ y :: post))[i]? = some v) :
    52 < v ↔ (i = pre.length ∨ i = pre.length + 1 + mid.length) := by
  rcases getElem?_marker pre _ x i v h with ⟨h1, h2⟩ | ⟨h1, h2⟩ | ⟨h1, h2⟩
  · have := hpre v h2
    constructor
    · intro h52
      omega
    · intro hi
      omega
  · subst h2
    exact ⟨fun _ => Or.inl h1, fun _ => hx⟩
  · rcases getElem?_marker mid _ y _ v h2 with ⟨g1, g2⟩ | ⟨g1, g2⟩ | ⟨g1, g2⟩
    · have := hmid v g2
      constructor
      · intro h52
        omega
      · intro hi
        omega
    · subst g2
      exact ⟨fun _ => Or.inr (by omega), fun _ => hy⟩
    · have := hpost v (List.getElem?_mem g2)
      constructor
      · intro h52
        omega
      · intro hi
        omega

/-- C16 (joker pair location).  On a deck that is a permutation of 1..54, `findJokers`
returns a pair of 1-indexed positions `posLow < posHigh` within 1..54; a position holds
a value above 52 exactly when it is one of the two, and the two hold 53 and 54 in one
order or the other. -/
theorem findJokers_positions (c : Cipher) (hv : ValidDeck c.key_) :
    ∃ posLow posHigh : Nat, findJokers c = .ok ((posLow : Int), (posHigh : Int)) ∧
      1 ≤ posLow ∧ posLow < posHigh ∧ posHigh ≤ 54 ∧
      (∀ (i : Nat) (v : Int), c.key_[i]? = some v →
        (52 < v ↔ (i + 1 = posLow ∨ i + 1 = posHigh))) ∧
      ((c.key_[posLow - 1]? = some 53 ∧ c.key_[posHigh - 1]? = some 54) ∨
        (c.key_[posLow - 1]? = some 54 ∧ c.key_[posHigh - 1]? = some 53)) := by
  obtain ⟨pre, mid, post, x, y, hd, hx, hy, hpre, hmid, hpost⟩ := hv.split_jokers
  have hlen := hv.length_eq
  rw [hd] at hlen
  simp only [List.length_append, List.length_cons] at hlen
  have hfx : (pre ++ x :: (mid ++ y :: post))[pre.length]? = some x := by
    rw [List.getElem?_append_right (le_refl _)]
    simp
  have hfy : (pre ++ x :: (mid ++ y :: post))[pre.length + 1 + mid.length]? = some y := by
    rw [List.getElem?_append_right (by omega)]
    have e : pre.length + 1 + mid.length - pre.length = mid.length + 1 := by omega
    rw [e, List.getElem?_cons_succ, List.getElem?_append_right (le_refl _)]
    simp
  have hx54 : x ≤ 54 := ((hv.mem_iff x).1 (by rw [hd]; simp)).2
  have hy54 : y ≤ 54 := ((hv.mem_iff y).1 (by rw [hd]; simp)).2
  have hxy : x ≠ y := by
    intro e
    subst e
    have hnd := hv.nodup
    rw [hd] at hnd
    have := (List.nodup_append.1 hnd).2.1
    simp at this
  refine ⟨pre.length + 1, pre.length + 1 + mid.length + 1, ?_, by omega, by omega, by omega,
    ?_, ?_⟩
  · simp only [findJokers, hd, findJokersLoop_two pre mid post x y hx hy hpre hmid hpost]
    simp
  · intro i v hiv
    rw [hd] at hiv
    rw [getElem?_two_markers pre mid post x y hx hy hpre hmid hpost i v hiv]
    omega
  · rw [hd]
    simp only [Nat.add_sub_cancel, hfx, hfy, Option.some.injEq]
    omega

/-- Witness for C16: on the deck 1, 2, ..., 54 the jokers are at positions 53 and 54. -/
theorem findJokers_positions_witness :
    ValidDeck fullDeck ∧ findJokers ⟨fullDeck, [], []⟩ = .ok (53, 54) ∧
      ∃ posLow posHigh : Nat,
        findJokers ⟨fullDeck, [], []⟩ = .ok ((posLow : Int), (posHigh : Int)) ∧
        posLow < posHigh := by
  obtain ⟨lo, hi, h1, _, h3, _⟩ := findJokers_positions ⟨fullDeck, [], []⟩ (List.Perm.refl _)
  exact ⟨List.Perm.refl _, rfl, lo, hi, h1, h3⟩

/-- C18 (output extraction).  On a deck that is a permutation of 1..54, with `idx` the
top card and `v` the card at 1-indexed position `idx`, `findOutput` returns -1 when
`v > 52`, `v` when `v <= 26` and `v - 26` when `27 <= v <= 52`; so it returns -1 exactly
when `v > 52`, and a value in 1..26 otherwise.  It is a `const` member: it returns a
value and no new state. -/
theorem findOutput_rule (c : Cipher) (hv : ValidDeck c.key_) :
    ∃ idx v : Int, c.key_[0]? = some idx ∧ 1 ≤ idx ∧ idx ≤ 54 ∧
      c.key_[(idx - 1).toNat]? = some v ∧
      findOutput c = .ok (if v > 52 then -1 else if v ≤ 26 then v else v - 26) ∧
      (findOutput c = .ok (-1) ↔ v > 52) ∧
      (v ≤ 52 → ∃ out, findOutput c = .ok out ∧ 1 ≤ out ∧ out ≤ 26) := by
  have hlen := hv.length_eq
  have h0 : (0 : Int).toNat < c.key_.length := by simp [hlen]
  have htop := hv.getElem_bounds _ h0
  have h1 : (c.key_[(0 : Int).toNat] - 1).toNat < c.key_.length := by omega
  have hout := hv.getElem_bounds _ h1
  have hno : ¬ (c.key_[(c.key_[(0 : Int).toNat] - 1).toNat] < 0
      ∨ c.key_[(c.key_[(0 : Int).toNat] - 1).toNat] > NCARDS) := by
    simp only [NCARDS]
    omega
  have e : findOutput c = .ok (if c.key_[(c.key_[(0 : Int).toNat] - 1).toNat] > 52 then -1
      else if c.key_[(c.key_[(0 : Int).toNat] - 1).toNat] ≤ 26
        then c.key_[(c.key_[(0 : Int).toNat] - 1).toNat]
        else c.key_[(c.key_[(0 : Int).toNat] - 1).toNat] - 26) := by
    simp only [findOutput, readAt_int _ 0 (le_refl _) h0, readAt_int _ _ (by omega) h1, bind,
      Except.bind, pure, Except.pure, hno, if_false, RADIX]
    congr 1
    repeat' split
    all_goals omega
  refine ⟨c.key_[(0 : Int).toNat], c.key_[(c.key_[(0 : Int).toNat] - 1).toNat],
    List.getElem?_eq_getElem h0, htop.1, htop.2, List.getElem?_eq_getElem h1, e, ?_, ?_⟩
  · rw [e]
    constructor
    · intro h
      injection h with h
      revert h
      split
      · intro _
        assumption
      · split <;> intro h <;> omega
    · intro h
      rw [if_pos h]
  · intro h52
    refine ⟨_, e, ?_⟩
    split
    · omega
    · split <;> omega

/-- Witness for C18: on the deck 1, 2, ..., 54 the top card is 1 and the output is 1;
on the deck 53, 1, 2, ..., 52, 54 the top card points at the card 52, output 26; on the
deck 54, 1, 2, ..., 53 the top card points at the joker 53 and the round is void. -/
theorem findOutput_rule_witness :
    ValidDeck fullDeck ∧ findOutput ⟨fullDeck, [], []⟩ = .ok 1 ∧
      findOutput ⟨jokerATopDeck, [], []⟩ = .ok 26 ∧
      findOutput ⟨jokerBTopDeck, [], []⟩ = .ok (-1) ∧
      ∃ idx v : Int, fullDeck[0]? = some idx ∧ fullDeck[(idx - 1).toNat]? = some v ∧
        findOutput ⟨fullDeck, [], []⟩
          = .ok (if v > 52 then -1 else if v ≤ 26 then v else v - 26) := by
  obtain ⟨idx, v, h1, _, _, h4, h5, _⟩ := findOutput_rule ⟨fullDeck, [], []⟩ (List.Perm.refl _)
  exact ⟨List.Perm.refl _, rfl, rfl, rfl, idx, v, h1, h4, h5⟩

/-! ## The keystream as the sequence of non-void round outputs -/

theorem writeAt_cons_succ (x : Int) (ks : List Int) (count : Nat) (out : Int) :
    writeAt (x :: ks) ((count + 1 : Nat) : Int) out
      = (writeAt ks (count : Int) out).map (fun ks1 => x :: ks1) := by
  by_cases h : count < ks.length
  · have h2 : count + 1 < (x :: ks).length := by simpa using h
    rw [writeAt_nat _ _ _ h2, writeAt_nat _ _ _ h]
    rfl
  · have g1 : ¬ ((0 : Int) ≤ ((count + 1 : Nat) : Int)
        ∧ ((count + 1 : Nat) : Int) < ((x :: ks).length : Int)) := by
      simp only [List.length_cons]
      omega
    have g2 : ¬ ((0 : Int) ≤ (count : Int) ∧ (count : Int) < (ks.length : Int)) := by omega
    simp only [writeAt, g1, g2, if_false]
    rfl

theorem readAt_cons_succ (x : Int) (ks : List Int) (count : Nat) :
    readAt (x :: ks) ((count + 1 : Nat) : Int) = readAt ks (count : Int) := by
  have g1 : (0 : Int) ≤ ((count + 1 : Nat) : Int) := by omega
  have g2 : (0 : Int) ≤ (count : Int) := by omega
  simp only [readAt, g1, g2, if_true, Int.toNat_ofNat, List.getElem?_cons_succ]

/-- Producing entries `count + 1 ..` of a keystream of length `n + 1` whose first entry
is fixed is the same as producing entries `count ..` of a keystream of length `n`. -/
theorem generateKeystreamLoop_cons (fuel : Nat) (n : Int) (count : Nat) (c : Cipher)
    (x : Int) (ks : List Int) :
    generateKeystreamLoop fuel (n + 1) (count + 1) { c with keystream_ := x :: ks }
      = (generateKeystreamLoop fuel n count { c with keystream_ := ks }).map
          (fun c1 => { c1 with keystream_ := x :: c1.keystream_ }) := by
  induction fuel generalizing count c ks with
  | zero =>
    by_cases hc : (count : Int) < n
    · have hc2 : ((count + 1 : Nat) : Int) < n + 1 := by omega
      simp only [generateKeystreamLoop, hc, hc2, if_true]
      rfl
    · have hc2 : ¬ ((count + 1 : Nat) : Int) < n + 1 := by omega
      simp only [generateKeystreamLoop, hc, hc2, if_false]
      rfl
  | succ fuel ih =>
    by_cases hc : (count : Int) < n
    · have hc2 : ((count + 1 : Nat) : Int) < n + 1 := by omega
      rw [generateKeystreamLoop_succ _ _ _ _ hc2, generateKeystreamLoop_succ _ _ _ _ hc,
        roundBody_frame, roundBody_frame]
      cases roundDeck c with
      | error e => rfl
      | ok c1 =>
        simp only [Except.bind]
        cases findOutput c1 with
        | error e => rfl
        | ok out =>
          simp only [writeAt_cons_succ]
          cases writeAt ks (count : Int) out with
          | error e => rfl
          | ok ks1 =>
            simp only [Except.map, readAt_cons_succ]
            cases readAt ks1 (count : Int) with
            | error e => rfl
            | ok k =>
              simp only []
              by_cases hk : k < 0
              · simp only [hk, if_true]
                exact ih count c1 ks1
              · simp only [hk, if_false]
                exact ih (count + 1) c1 ks1
    · have hc2 : ¬ ((count + 1 : Nat) : Int) < n + 1 := by omega
      rw [generateKeystreamLoop_done _ _ _ _ hc2, generateKeystreamLoop_done _ _ _ _ hc]
      rfl

theorem resize_ok (v : List Int) (n : Int) (h : 0 ≤ n) :
    ∃ ks, resize v n = .ok ks ∧ (ks.length : Int) = n := by
  have e : resize v n = .ok (v.take n.toNat ++ List.replicate (n.toNat - v.length) 0) := by
    simp only [resize, h, if_true]
  exact ⟨_, e, (resize_length _ _ _ e).1⟩

/-- One loop iteration of `generateKeystream` peeled off: after a void round the
request goes on unchanged from the deck the round left; after a round with output
`out` the result is `out` followed by the keystream of the shorter request from that
deck. -/
theorem generateKeystream_unfold (fuel n : Nat) (c c1 : Cipher) (out : Int)
    (hr : roundDeck c = .ok c1) (ho : findOutput c1 = .ok out) :
    generateKeystream (fuel + 1) ((n : Int) + 1) c
      = if out < 0 then generateKeystream fuel ((n : Int) + 1) c1
        else (generateKeystream fuel (n : Int) c1).map
          (fun r => (out :: r.1, { r.2 with keystream_ := out :: r.1 })) := by
  obtain ⟨ks0, r0, l0⟩ := resize_ok c.keystream_ ((n : Int) + 1) (by omega)
  cases ks0 with
  | nil => simp at l0; omega
  | cons a t =>
    have lt : (t.length : Int) = n := by
      simp only [List.length_cons] at l0
      omega
    have hc : (((0 : Nat) : Int)) < (n : Int) + 1 := by omega
    have hw : writeAt (a :: t) ((0 : Nat) : Int) out = .ok (out :: t) :=
      writeAt_nat (a :: t) 0 out (by simp)
    have hrd : readAt (out :: t) ((0 : Nat) : Int) = .ok out :=
      readAt_nat (out :: t) 0 (by simp)
    have step : generateKeystreamLoop (fuel + 1) ((n : Int) + 1) 0
          { c with keystream_ := a :: t }
        = if out < 0 then
            generateKeystreamLoop fuel ((n : Int) + 1) 0 { c1 with keystream_ := out :: t }
          else generateKeystreamLoop fuel ((n : Int) + 1) (0 + 1)
            { c1 with keystream_ := out :: t } := by
      rw [generateKeystreamLoop_succ _ _ _ _ hc, roundBody_frame, hr]
      simp only [Except.bind, ho, hw, Except.map, hrd]
    simp only [generateKeystream, r0, bind, Except.bind, step]
    by_cases hk : out < 0
    · obtain ⟨ks1, r1, l1⟩ := resize_ok c1.keystream_ ((n : Int) + 1) (by omega)
      have e := generateKeystreamLoop_congr fuel ((n : Int) + 1) 0 c1 (out :: t) ks1
        (by simp only [List.length_cons]; omega)
        (by simp only [List.length_cons]; omega) (by simp)
      simp only [hk, if_true, r1, e]
    · obtain ⟨ks2, r2, l2⟩ := resize_ok c1.keystream_ (n : Int) (by omega)
      have e := generateKeystreamLoop_congr fuel (n : Int) 0 c1 t ks2 lt (by omega) (by simp)
      simp only [hk, if_false, r2, generateKeystreamLoop_cons, e]
      cases generateKeystreamLoop fuel (n : Int) 0 { c1 with keystream_ := ks2 } with
      | error e => rfl
      | ok c2 => rfl

theorem generateKeystream_zero (fuel : Nat) (c : Cipher) :
    generateKeystream fuel 0 c = .ok ([], { c with keystream_ := [] }) := by
  have hc : ¬ (((0 : Nat) : Int)) < 0 := by omega
  have e := generateKeystreamLoop_done fuel 0 0 { c with keystream_ := [] } hc
  simp only [generateKeystream, resize, le_refl, if_true, Int.toNat_zero, List.take_zero,
    Nat.zero_sub, List.replicate_zero, List.append_nil, bind, Except.bind, e, pure,
    Except.pure]

theorem roundsFrom_succ_ok (m : Nat) (c : Cipher) (outs : List Int) (c2 : Cipher)
    (h : roundsFrom (m + 1) c = .ok (outs, c2)) :
    ∃ c1 out outs1, roundDeck c = .ok c1 ∧ findOutput c1 = .ok out ∧
      roundsFrom m c1 = .ok (outs1, c2) ∧ outs = out :: outs1 := by
  simp only [roundsFrom, bind, pure, Except.pure] at h
  obtain ⟨c1, h1, h⟩ := bind_eq_ok h
  obtain ⟨out, h2, h⟩ := bind_eq_ok h
  obtain ⟨r, h3, h⟩ := bind_eq_ok h
  obtain ⟨outs1, c3⟩ := r
  simp only [Except.ok.injEq, Prod.mk.injEq] at h
  obtain ⟨h4, h5⟩ := h
  subst h5
  exact ⟨c1, out, outs1, h1, h2, h3, h4.symm⟩

/-- Enough non-void rounds give the result: if the first `m` rounds have at least `n`
non-void outputs, `generateKeystream(n)` returns within `m` loop iterations, and what it
returns is the first `n` of them. -/
theorem generateKeystream_of_rounds (m n : Nat) (c : Cipher) (outs : List Int) (c2 : Cipher)
    (h : roundsFrom m c = .ok (outs, c2))
    (hn : n ≤ (outs.filter (fun o => decide (0 ≤ o))).length) :
    ∃ c3, generateKeystream m (n : Int) c
      = .ok ((outs.filter (fun o => decide (0 ≤ o))).take n, c3) := by
  induction m generalizing n c outs with
  | zero =>
    simp only [roundsFrom, Except.ok.injEq, Prod.mk.injEq] at h
    obtain ⟨h1, _⟩ := h
    subst h1
    have : n = 0 := by simpa using hn
    subst this
    exact ⟨_, by simpa using generateKeystream_zero 0 c⟩
  | succ m ih =>
    cases n with
    | zero => exact ⟨_, by simpa using generateKeystream_zero (m + 1) c⟩
    | succ n =>
      obtain ⟨c1, out, outs1, h1, h2, h3, h4⟩ := roundsFrom_succ_ok m c outs c2 h
      subst h4
      have e := generateKeystream_unfold m n c c1 out h1 h2
      have ecast : (((n + 1 : Nat)) : Int) = (n : Int) + 1 := by push_cast; rfl
      rw [ecast, e]
      by_cases hk : out < 0
      · have hf : ¬ (0 ≤ out) := by omega
        rw [List.filter_cons_of_neg (by simpa using hf)] at hn ⊢
        rw [if_pos hk, ← ecast]
        exact ih (n + 1) c1 outs1 h3 hn
      · have hf : 0 ≤ out := by omega
        rw [List.filter_cons_of_pos (by simpa using hf)] at hn ⊢
        rw [if_neg hk]
        obtain ⟨c3, e3⟩ := ih n c1 outs1 h3 (by simpa using hn)
        rw [e3]
        exact ⟨_, rfl⟩

/-- Whatever `generateKeystream(n)` returns within `m` loop iterations is the first `n`
non-void outputs of the first `m` rounds. -/
theorem rounds_of_generateKeystream (m n : Nat) (c : Cipher) (outs : List Int) (c2 : Cipher)
    (ks : List Int) (c3 : Cipher) (h : roundsFrom m c = .ok (outs, c2))
    (hg : generateKeystream m (n : Int) c = .ok (ks, c3)) :
    n ≤ (outs.filter (fun o => decide (0 ≤ o))).length ∧
      ks = (outs.filter (fun o => decide (0 ≤ o))).take n := by
  induction m generalizing n c outs ks c3 with
  | zero =>
    cases n with
    | zero =>
      have e := generateKeystream_zero 0 c
      simp only [Nat.cast_zero] at hg
      rw [e] at hg
      simp only [Except.ok.injEq, Prod.mk.injEq] at hg
      exact ⟨Nat.zero_le _, by rw [← hg.1]; rfl⟩
    | succ n =>
      exfalso
      obtain ⟨ks0, r0, _⟩ := resize_ok c.keystream_ (((n + 1 : Nat)) : Int) (by omega)
      have hc : (((0 : Nat)) : Int) < (((n + 1 : Nat)) : Int) := by omega
      simp only [generateKeystream, r0, bind, Except.bind, generateKeystreamLoop, hc,
        if_true] at hg
      cases hg
  | succ m ih =>
    cases n with
    | zero =>
      have e := generateKeystream_zero (m + 1) c
      simp only [Nat.cast_zero] at hg
      rw [e] at hg
      simp only [Except.ok.injEq, Prod.mk.injEq] at hg
      exact ⟨Nat.zero_le _, by rw [← hg.1]; rfl⟩
    | succ n =>
      obtain ⟨c1, out, outs1, h1, h2, h3, h4⟩ := roundsFrom_succ_ok m c outs c2 h
      subst h4
      have e := generateKeystream_unfold m n c c1 out h1 h2
      have ecast : (((n + 1 : Nat)) : Int) = (n : Int) + 1 := by push_cast; rfl
      rw [ecast, e] at hg
      by_cases hk : out < 0
      · have hf : ¬ (0 ≤ out) := by omega
        rw [List.filter_cons_of_neg (by simpa using hf)]
        rw [if_pos hk, ← ecast] at hg
        exact ih (n + 1) c1 outs1 ks c3 h3 hg
      · have hf : 0 ≤ out := by omega
        rw [List.filter_cons_of_pos (by simpa using hf)]
        rw [if_neg hk] at hg
        cases hr : generateKeystream m (n : Int) c1 with
        | error err =>
          rw [hr] at hg
          cases hg
        | ok r =>
          obtain ⟨ks1, c4⟩ := r
          rw [hr] at hg
          simp only [Except.map, Except.ok.injEq, Prod.mk.injEq] at hg
          obtain ⟨i1, i2⟩ := ih n c1 outs1 ks1 c4 h3 hr
          refine ⟨by simpa using i1, ?_⟩
          rw [← hg.1, i2]
          rfl

/-- On a valid deck the iterated round sequence exists for every number of rounds. -/
theorem roundsFrom_valid (m : Nat) (c : Cipher) (hv : ValidDeck c.key_) :
    ∃ outs c2, roundsFrom m c = .ok (outs, c2) ∧ outs.length = m ∧ ValidDeck c2.key_ ∧
      ∀ o ∈ outs, o = -1 ∨ (1 ≤ o ∧ o ≤ 26) := by
  induction m generalizing c with
  | zero => exact ⟨[], c, rfl, rfl, hv, by simp⟩
  | succ m ih =>
    obtain ⟨k, e1, v⟩ := roundDeck_valid c hv
    obtain ⟨out, e2, ho⟩ := findOutput_valid { c with key_ := k } v
    obtain ⟨outs, c2, e3, hl, v2, hr⟩ := ih { c with key_ := k } v
    refine ⟨out :: outs, c2, ?_, by simp [hl], v2, ?_⟩
    · simp only [roundsFrom, e1, e2, e3, bind, Except.bind, pure, Except.pure]
    · intro o hmem
      rcases List.mem_cons.1 hmem with h | h
      · subst h
        exact ho
      · exact hr o h

/-- C19 (void rounds are retried with the deck carried forward).  On a valid deck:
a request of length 0 returns the empty keystream; the round returns a deck `d1` and an
output, and for every request length `n + 1`, if the round is void (output -1) then
`generateKeystream(n + 1)` from the deck equals `generateKeystream(n + 1)` from `d1`
(one loop iteration later), and otherwise it equals the round output followed by
`generateKeystream(n)` from `d1`; and for every number `m` of rounds the iterated round
sequence exists, `generateKeystream(n)` returns within any `fuel >= m` loop iterations
as soon as the first `m` rounds have `n` non-void outputs, and whatever it returns
within `m` iterations is exactly the first `n` non-void outputs of those rounds, in
order. -/
theorem generateKeystream_rounds (c : Cipher) (hv : ValidDeck c.key_) :
    (∀ fuel : Nat, generateKeystream fuel 0 c = .ok ([], { c with keystream_ := [] })) ∧
      (∃ (c1 : Cipher) (out : Int), roundDeck c = .ok c1 ∧ findOutput c1 = .ok out ∧
        ValidDeck c1.key_ ∧ (out = -1 ∨ (1 ≤ out ∧ out ≤ 26)) ∧
        (out = -1 → ∀ fuel n : Nat,
          generateKeystream (fuel + 1) ((n : Int) + 1) c
            = generateKeystream fuel ((n : Int) + 1) c1) ∧
        (out ≠ -1 → ∀ fuel n : Nat,
          generateKeystream (fuel + 1) ((n : Int) + 1) c
            = (generateKeystream fuel (n : Int) c1).map
                (fun r => (out :: r.1, { r.2 with keystream_ := out :: r.1 })))) ∧
      (∀ m : Nat, ∃ (outs : List Int) (c2 : Cipher), roundsFrom m c = .ok (outs, c2) ∧
        outs.length = m ∧ ValidDeck c2.key_ ∧
        (∀ n fuel : Nat, n ≤ (outs.filter (fun o => decide (0 ≤ o))).length → m ≤ fuel →
          ∃ c3, generateKeystream fuel (n : Int) c
            = .ok ((outs.filter (fun o => decide (0 ≤ o))).take n, c3)) ∧
        (∀ (n : Nat) (ks : List Int) (c3 : Cipher),
          generateKeystream m (n : Int) c = .ok (ks, c3) →
            n ≤ (outs.filter (fun o => decide (0 ≤ o))).length ∧
              ks = (outs.filter (fun o => decide (0 ≤ o))).take n)) := by
  refine ⟨fun fuel => generateKeystream_zero fuel c, ?_, ?_⟩
  · obtain ⟨k, e1, v⟩ := roundDeck_valid c hv
    obtain ⟨out, e2, ho⟩ := findOutput_valid { c with key_ := k } v
    refine ⟨_, out, e1, e2, v, ho, ?_, ?_⟩
    · intro h fuel n
      rw [generateKeystream_unfold fuel n c _ out e1 e2, if_pos (by omega)]
    · intro h fuel n
      rw [generateKeystream_unfold fuel n c _ out e1 e2, if_neg (by omega)]
  · intro m
    obtain ⟨outs, c2, e, hl, v2, _⟩ := roundsFrom_valid m c hv
    refine ⟨outs, c2, e, hl, v2, ?_, ?_⟩
    · intro n fuel hn hf
      obtain ⟨c3, e3⟩ := generateKeystream_of_rounds m n c outs c2 e hn
      exact ⟨c3, generateKeystream_mono m fuel _ _ _ hf e3⟩
    · intro n ks c3 hg
      exact rounds_of_generateKeystream m n c outs c2 ks c3 e hg

theorem voidRoundDeck_valid : ValidDeck voidRoundDeck := by
  unfold ValidDeck
  decide

/-- Witness for C19.  From the deck 1, 2, ..., 54 the first round gives 5, so the
keystream is 5 followed by the keystream from the deck that round left, and three
rounds give the keystream 5, 9, 13.  From the deck 53, 52, ..., 1, 54 the first two
rounds are void and the third gives 1: the request goes on from the deck each void
round left, a request of length 1 returns the keystream 1 within three loop
iterations and does not return within two. -/
theorem generateKeystream_rounds_witness :
    ValidDeck fullDeck ∧ ValidDeck voidRoundDeck ∧
      (∃ c1, roundDeck ⟨fullDeck, [], []⟩ = .ok c1 ∧ findOutput c1 = .ok 5 ∧
        ∀ fuel n : Nat,
          generateKeystream (fuel + 1) ((n : Int) + 1) ⟨fullDeck, [], []⟩
            = (generateKeystream fuel (n : Int) c1).map
                (fun r => (5 :: r.1, { r.2 with keystream_ := 5 :: r.1 }))) ∧
      (∃ c1, roundDeck ⟨voidRoundDeck, [], []⟩ = .ok c1 ∧ findOutput c1 = .ok (-1) ∧
        ∀ fuel n : Nat,
          generateKeystream (fuel + 1) ((n : Int) + 1) ⟨voidRoundDeck, [], []⟩
            = generateKeystream fuel ((n : Int) + 1) c1) ∧
      (∃ c2, roundsFrom 3 ⟨fullDeck, [], []⟩ = .ok ([5, 9, 13], c2)) ∧
      (∀ fuel : Nat, 3 ≤ fuel →
        ∃ c3, generateKeystream fuel 3 ⟨fullDeck, [], []⟩ = .ok ([5, 9, 13], c3)) ∧
      (∃ c2, roundsFrom 3 ⟨voidRoundDeck, [], []⟩ = .ok ([-1, -1, 1], c2)) ∧
      (∀ fuel : Nat, 3 ≤ fuel →
        ∃ c3, generateKeystream fuel 1 ⟨voidRoundDeck, [], []⟩ = .ok ([1], c3)) ∧
      (∀ (ks : List Int) (c3 : Cipher),
        generateKeystream 2 1 ⟨voidRoundDeck, [], []⟩ ≠ .ok (ks, c3)) ∧
      generateKeystream 0 0 ⟨voidRoundDeck, [], []⟩ = .ok ([], ⟨voidRoundDeck, [], []⟩) := by
  refine ⟨List.Perm.refl _, voidRoundDeck_valid, ?_, ?_, ⟨_, rfl⟩, ?_, ⟨_, rfl⟩, ?_, ?_, ?_⟩
  · obtain ⟨c1, out, h1, h2, _, _, _, h6⟩ :=
      (generateKeystream_rounds ⟨fullDeck, [], []⟩ (List.Perm.refl _)).2.1
    have hx : ∃ c2, roundDeck ⟨fullDeck, [], []⟩ = .ok c2 ∧ findOutput c2 = .ok 5 :=
      ⟨_, rfl, rfl⟩
    obtain ⟨c2, g1, g2⟩ := hx
    rw [h1] at g1
    injection g1 with g1
    subst g1
    rw [h2] at g2
    injection g2 with g2
    subst g2
    exact ⟨c1, h1, h2, h6 (by decide)⟩
  · obtain ⟨c1, out, h1, h2, _, _, h5, _⟩ :=
      (generateKeystream_rounds ⟨voidRoundDeck, [], []⟩ voidRoundDeck_valid).2.1
    have hx : ∃ c2, roundDeck ⟨voidRoundDeck, [], []⟩ = .ok c2 ∧ findOutput c2 = .ok (-1) :=
      ⟨_, rfl, rfl⟩
    obtain ⟨c2, g1, g2⟩ := hx
    rw [h1] at g1
    injection g1 with g1
    subst g1
    rw [h2] at g2
    injection g2 with g2
    subst g2
    exact ⟨c1, h1, h2, h5 rfl⟩
  · intro fuel hf
    obtain ⟨outs, c2, e, _, _, h4, _⟩ :=
      (generateKeystream_rounds ⟨fullDeck, [], []⟩ (List.Perm.refl _)).2.2 3
    have hx : ∃ c4, roundsFrom 3 ⟨fullDeck, [], []⟩ = .ok ([5, 9, 13], c4) := ⟨_, rfl⟩
    obtain ⟨c4, g⟩ := hx
    rw [e] at g
    simp only [Except.ok.injEq, Prod.mk.injEq] at g
    obtain ⟨g1, _⟩ := g
    subst g1
    exact h4 3 fuel (by decide) hf
  · intro fuel hf
    obtain ⟨outs, c2, e, _, _, h4, _⟩ :=
      (generateKeystream_rounds ⟨voidRoundDeck, [], []⟩ voidRoundDeck_valid).2.2 3
    have hx : ∃ c4, roundsFrom 3 ⟨voidRoundDeck, [], []⟩ = .ok ([-1, -1, 1], c4) := ⟨_, rfl⟩
    obtain ⟨c4, g⟩ := hx
    rw [e] at g
    simp only [Except.ok.injEq, Prod.mk.injEq] at g
    obtain ⟨g1, _⟩ := g
    subst g1
    exact h4 1 fuel (by decide) hf
  · intro ks c3 hg
    obtain ⟨outs, c2, e, _, _, _, h5⟩ :=
      (generateKeystream_rounds ⟨voidRoundDeck, [], []⟩ voidRoundDeck_valid).2.2 2
    have hx : ∃ c4, roundsFrom 2 ⟨voidRoundDeck, [], []⟩ = .ok ([-1, -1], c4) := ⟨_, rfl⟩
    obtain ⟨c4, g⟩ := hx
    rw [e] at g
    simp only [Except.ok.injEq, Prod.mk.injEq] at g
    obtain ⟨g1, _⟩ := g
    subst g1
    have := (h5 1 ks c3 hg).1
    revert this
    decide
  · exact (generateKeystream_rounds ⟨voidRoundDeck, [], []⟩ voidRoundDeck_valid).1 0

/-- C20 (reverse round trip).  For a key `K` that is a permutation of 1..54 and a text
`C` over a..z, if keystream generation for length `|C|` from `K` finishes within
`fuel` loop iterations, then `decrypt` on a cipher with `initKey_ = K` returns a text
`pt` over a..z of the same length (with any fuel at least that large), and `encrypt`
of `pt` on any cipher with `initKey_ = K` returns exactly `C`.  With the round trip
of C1 the two are mutually inverse on strings over a..z of one length. -/
theorem encrypt_decrypt_round_trip (fuel : Nat) (K : List Int) (C : List Char) (c : Cipher)
    (r : List Int × Cipher) (hK : ValidDeck K) (hC : LowerCase C) (hc : c.initKey_ = K)
    (hterm : generateKeystream fuel C.length { c with key_ := K } = .ok r) :
    ∃ pt, (∀ f1, fuel ≤ f1 → ∃ c1, decrypt f1 C c = .ok (pt, c1) ∧ c1.initKey_ = K) ∧
      LowerCase pt ∧ pt.length = C.length ∧
      (∀ f2 (d : Cipher), fuel ≤ f2 → d.initKey_ = K →
        ∃ d1, encrypt f2 pt d = .ok (C, d1)) := by
  subst hc
  obtain ⟨ks, c1⟩ := r
  obtain ⟨hlen, hrange, hks, _, hik⟩ := generateKeystream_valid _ _ _ _ _ hK hterm
  have hlen2 : ks.length = C.length := by exact_mod_cast hlen
  have hcr := convertCharsToInts_range C hC
  have hdr := zipWith_dec_range _ _ hcr hrange
  have hptlen : (convertIntsToChars (List.zipWith
      (fun t k => if t - k < 1 then t - k + RADIX else t - k)
      (convertCharsToInts C) ks)).length = C.length := by
    simp [convertIntsToChars_length, convertCharsToInts_length, hlen2]
  refine ⟨convertIntsToChars (List.zipWith
      (fun t k => if t - k < 1 then t - k + RADIX else t - k)
      (convertCharsToInts C) ks), ?_, convertIntsToChars_lowerCase _ hdr, hptlen, ?_⟩
  · intro f1 hf1
    have h1 := generateKeystream_mono _ f1 _ _ _ hf1 hterm
    exact ⟨c1, decrypt_eq f1 C c ks c1 h1 hks hlen2, hik⟩
  · intro f2 d hf2 hd
    have h2 := generateKeystream_mono _ f2 _ _ _ hf2 hterm
    have hcg := generateKeystream_congr f2 C.length { d with key_ := d.initKey_ }
      { c with key_ := c.initKey_ } hd hd
    rw [h2, ← hptlen] at hcg
    have e := encrypt_eq f2 _ d ks c1 hcg hks (by rw [hptlen, hlen2])
    refine ⟨c1, ?_⟩
    rw [e, convertCharsToInts_convertIntsToChars _ hdr,
      zipWith_enc_dec _ _ hcr hrange (by simp [convertCharsToInts_length, hlen2]),
      convertIntsToChars_convertCharsToInts C hC]

/-- Witness for C20: the key 1, 2, ..., 54 and the text "hi". -/
theorem encrypt_decrypt_round_trip_witness :
    ValidDeck fullDeck ∧ LowerCase ['h', 'i'] ∧
      ∃ pt, (∀ f1, 2 ≤ f1 → ∃ c1, decrypt f1 ['h', 'i'] ⟨[], fullDeck, []⟩ = .ok (pt, c1)
          ∧ c1.initKey_ = fullDeck) ∧ LowerCase pt ∧ pt.length = 2 ∧
        (∀ f2 (d : Cipher), 2 ≤ f2 → d.initKey_ = fullDeck →
          ∃ d1, encrypt f2 pt d = .ok (['h', 'i'], d1)) :=
  ⟨List.Perm.refl _, lowerCase_hi,
    encrypt_decrypt_round_trip 2 fullDeck ['h', 'i'] ⟨[], fullDeck, []⟩ _ (List.Perm.refl _)
      lowerCase_hi rfl rfl⟩

/-- Witness for C17: a deck without the value 53 and with a single entry above 52. -/
theorem locate_fails_iff_missing_witness :
    (53 : Int) ∉ [1, 2, 54] ∧ (∃ what, findJokerA ⟨[1, 2, 54], [], []⟩ = .error (.runtime_error what)) ∧
      (∃ what, findJokers ⟨[1, 2, 54], [], []⟩ = .error (.runtime_error what)) ∧
      findJokerB ⟨[1, 2, 54], [], []⟩ = .ok 54 :=
  ⟨by decide, (locate_fails_iff_missing ⟨[1, 2, 54], [], []⟩).1.2 (by decide),
    (locate_fails_iff_missing ⟨[1, 2, 54], [], []⟩).2.2.1.2 (by decide), rfl⟩

end Cipher
